import Mathlib

/-!
# Verification of the contact-extraction pipeline

A shallow embedding, in Lean 4, of the contact-extraction and quality
pipeline of the `contact_parser` repository (`src/contact_processor.py`,
`src/imap_client.py`, `src/signature_parser.py`, `src/ner_extractor.py`,
`test_phonenumbers_perfect.py`), together with theorems settling the
behavioural claims about it.

Conventions of the embedding:
* Python strings are modelled as `List Char` (`Str`); Python `str` methods
  (`lower`, `strip`, `split`, ...) are re-implemented below following
  CPython semantics on the character classes the code actually meets
  (ASCII plus the Cyrillic block used by the data).  The regex character
  classes `\d` and `\s` are modelled as ASCII digits and the standard
  whitespace characters.
* Python floats carrying confidence scores are modelled as `ℚ`; every score
  in the program is a sum of the fixed weights 0.1/0.2/0.3, for which float
  rounding at two decimals agrees with exact rational arithmetic.
* Configuration sets loaded from `data/*.txt` (internal domains, blacklists,
  stop words) are opaque inputs; definitions take them as parameters.
* The statistical NER tagger (Natasha) and the `phonenumbers` matcher are
  external collaborators; their outputs appear as parameters of the
  functions that consume them.
-/

set_option maxHeartbeats 1000000

namespace ContactParser

/-- Python strings are modelled as lists of characters. -/
abbrev Str := List Char

/-- Characters treated as whitespace by Python `str.strip` / `str.split` /
regex `\s` (the ASCII subset, which covers all inputs of interest). -/
def isPySpace (c : Char) : Bool :=
  c = ' ' || c = '\t' || c = '\n' || c = '\r' || c = '\x0b' || c = '\x0c'

/-- Python `str.lower` on one character: ASCII `A`–`Z` and the Cyrillic
capitals `А`–`Я` and `Ё` are mapped to their lowercase forms. -/
def pyLowerChar (c : Char) : Char :=
  if 'A' ≤ c && c ≤ 'Z' then Char.ofNat (c.toNat + 32)
  else if 0x410 ≤ c.toNat && c.toNat ≤ 0x42F then Char.ofNat (c.toNat + 0x20)
  else if c.toNat = 0x401 then Char.ofNat 0x451
  else c

/-- Python `str.lower`. -/
def pyLower (s : Str) : Str := s.map pyLowerChar

/-- Python `str.strip()`: drop whitespace from both ends. -/
def pyStrip (s : Str) : Str :=
  ((s.dropWhile isPySpace).reverse.dropWhile isPySpace).reverse

/-- Helper for `collapseRuns`: `inRun` records whether the previous
character belonged to a run of the collapsed class. -/
def collapseRunsAux (p : Char → Bool) : Bool → Str → Str
  | _, [] => []
  | inRun, c :: rest =>
    if p c then
      if inRun then collapseRunsAux p true rest
      else ' ' :: collapseRunsAux p true rest
    else c :: collapseRunsAux p false rest

/-- Replace every maximal run of characters satisfying `p` by a single
space — the effect of `re.sub(p+, ' ', s)` for a character class `p`. -/
def collapseRuns (p : Char → Bool) (s : Str) : Str :=
  collapseRunsAux p false s

/-- Helper for `pySplitWs`: `cur` accumulates the current word reversed. -/
def pySplitWsAux (cur : Str) : Str → List Str
  | [] => if cur.isEmpty then [] else [cur.reverse]
  | c :: rest =>
    if isPySpace c then
      if cur.isEmpty then pySplitWsAux [] rest
      else cur.reverse :: pySplitWsAux [] rest
    else pySplitWsAux (c :: cur) rest

/-- Python `str.split()` with no argument: split on whitespace runs,
dropping empty pieces. -/
def pySplitWs (s : Str) : List Str := pySplitWsAux [] s

/-- Python `str.split(sep)` for a single-character separator. -/
def pySplitOn (sep : Char) : Str → List Str
  | [] => [[]]
  | c :: rest =>
    if c = sep then [] :: pySplitOn sep rest
    else
      match pySplitOn sep rest with
      | [] => [[c]]
      | w :: ws => (c :: w) :: ws

/-- Substring test (`pat in s` in Python): `true` iff `pat` occurs
contiguously inside `s`. -/
def subOf (pat s : Str) : Bool :=
  match s with
  | [] => pat.isEmpty
  | _ :: rest => pat.isPrefixOf s || subOf pat rest

/-- Lexicographic comparison of strings by character code
(Python `<=` on `str`). -/
def lexLe : Str → Str → Bool
  | [], _ => true
  | _ :: _, [] => false
  | a :: as, b :: bs => if a < b then true else if a = b then lexLe as bs else false

/-- `'|'.join(parts)`. -/
def joinBar (parts : List Str) : Str := List.intercalate ['|'] parts

/-- `', '.join(parts)`. -/
def joinCommaSpace (parts : List Str) : Str := List.intercalate (", ".data) parts

end ContactParser

namespace ContactParser

/-! ## Data model: `FullContactInfo` (contact_processor.py) -/

/-- The `FullContactInfo` dataclass of `contact_processor.py`. -/
structure FullContactInfo where
  fio : Str := []
  position : Str := []
  company : Str := []
  email : Str := []
  phones : List Str := []
  address : Str := []
  city : Str := []
  inn : Str := []
  confidence_score : ℚ := 0
  issues : List Str := []
  source : Str := []
  email_date : Str := []
  email_subject : Str := []
deriving DecidableEq, Repr

/-- The configuration sets `ContactProcessor` loads from `data/*.txt`
(opaque external resources, already lower-cased by `_load_list_from_file`). -/
structure Config where
  internal_domains : List Str := []
  blacklist_emails : List Str := []
  stop_words_person : List Str := []
  company_blacklist : List Str := []
deriving Repr

/-! ## `ContactProcessor._is_internal_email` -/

/-- `ContactProcessor._is_internal_email`: an empty address is internal;
otherwise the lower-cased, stripped address is internal when it sits in the
blacklist or ends with `@` + one of the internal domains. -/
def is_internal_email (cfg : Config) (email : Str) : Bool :=
  if email.isEmpty then true
  else
    let e := pyStrip (pyLower email)
    if cfg.blacklist_emails.contains e then true
    else cfg.internal_domains.any (fun d => (('@' :: d)).isSuffixOf e)

/-! ## `ContactProcessor._is_high_quality_contact` (acceptance gate) -/

/-- `ContactProcessor._is_high_quality_contact`: reject an internal email,
then require (fio or company) and (email containing `@`, or a phone). -/
def is_high_quality_contact (cfg : Config) (c : FullContactInfo) : Bool :=
  if !c.email.isEmpty && is_internal_email cfg c.email then false
  else
    let has_name := !(pyStrip c.fio).isEmpty
    let has_company := !(pyStrip c.company).isEmpty
    let has_email := !(pyStrip c.email).isEmpty && c.email.contains '@'
    let has_phone := !c.phones.isEmpty
    (has_name || has_company) && (has_email || has_phone)

/-! ## `ContactProcessor._analyze_contact_quality` (scoring) -/

/-- `round(x, 2)` on the exact rational value of the score. -/
def round2 (q : ℚ) : ℚ := (round (q * 100) : ℤ) / 100

/-- `ContactProcessor._analyze_contact_quality`: fixed weights summed, an
issue recorded for each missing component except email. -/
def analyze_contact_quality (c : FullContactInfo) : ℚ × List Str :=
  let s0 : ℚ := 0
  let i0 : List Str := []
  let (s1, i1) :=
    if !c.fio.isEmpty && decide (2 ≤ (pySplitWs c.fio).length) then (s0 + 3/10, i0)
    else (s0, i0 ++ ["ФИО неполное или отсутствует".data])
  let (s2, i2) :=
    if !c.position.isEmpty then (s1 + 1/10, i1)
    else (s1, i1 ++ ["Должность не определена".data])
  let (s3, i3) :=
    if !c.company.isEmpty then (s2 + 2/10, i2)
    else (s2, i2 ++ ["Компания не найдена".data])
  let (s4, i4) :=
    if !c.phones.isEmpty then (s3 + 2/10, i3)
    else (s3, i3 ++ ["Телефоны не найдены".data])
  let (s5, i5) :=
    if !c.email.isEmpty && c.email.contains '@' then (s4 + 1/10, i4)
    else (s4, i4)
  let (s6, i6) :=
    if !c.address.isEmpty then (s5 + 1/10, i5)
    else (s5, i5 ++ ["Адрес не найден".data])
  (round2 s6, i6)

/-! ## `ContactProcessor.deduplicate_contacts` -/

/-- The key parts for a contact as built at insertion time:
`email:<lower,strip>` when the email is non-empty, then
`fio:<\s+-collapsed lower,strip>` when the fio is non-empty. -/
def keyParts (c : FullContactInfo) : List Str :=
  (if !c.email.isEmpty then ["email:".data ++ pyStrip (pyLower c.email)] else []) ++
  (if !c.fio.isEmpty then ["fio:".data ++ collapseRuns isPySpace (pyStrip (pyLower c.fio))] else [])

/-- The full deduplication key: the sorted key parts joined with `|`. -/
def dedupKey (c : FullContactInfo) : Str :=
  joinBar ((keyParts c).insertionSort (fun a b => lexLe a b = true))

/-- The key parts as recomputed inside the duplicate-search loop.  The
source (contact_processor.py line 856) collapses runs of the letter `s`
instead of whitespace: `re.sub(r's+', ' ', ...)` — the missing backslash is
reproduced faithfully here. -/
def existingKeyParts (c : FullContactInfo) : List Str :=
  (if !c.email.isEmpty then ["email:".data ++ pyStrip (pyLower c.email)] else []) ++
  (if !c.fio.isEmpty then
    ["fio:".data ++ collapseRuns (fun ch => ch = 's') (pyStrip (pyLower c.fio))] else [])

/-- The key compared against inside the duplicate-search loop. -/
def existingKey (c : FullContactInfo) : Str :=
  joinBar ((existingKeyParts c).insertionSort (fun a b => lexLe a b = true))

/-- One step of the accumulation loop of `deduplicate_contacts`. -/
def dedupeStep (st : List FullContactInfo × List Str) (c : FullContactInfo) :
    List FullContactInfo × List Str :=
  let (unique, seen) := st
  if (keyParts c).isEmpty then (unique ++ [c], seen)
  else
    let key := dedupKey c
    if seen.contains key then
      match unique.findIdx? (fun e => existingKey e = key) with
      | some i =>
        if (unique.getD i {}).confidence_score < c.confidence_score then
          (unique.set i c, seen)
        else (unique, seen)
      | none => (unique, seen)
    else (unique ++ [c], seen ++ [key])

/-- `ContactProcessor.deduplicate_contacts`. -/
def deduplicate_contacts (contacts : List FullContactInfo) : List FullContactInfo :=
  if contacts.isEmpty then contacts
  else (contacts.foldl dedupeStep ([], [])).1

end ContactParser

namespace ContactParser

/-! ## Orchestration layer (imap_client.py) -/

/-- The email selection of `ContactProcessor._process_signature_block`
(lines 414–417): prefer the signature-parsed email when it is non-empty and
not internal, otherwise store the externally supplied address. -/
def chooseEmail (cfg : Config) (sigEmail externalEmail : Str) : Str :=
  if !sigEmail.isEmpty && !is_internal_email cfg sigEmail then sigEmail
  else externalEmail

/-- `IMAPClient._filter_and_dedupe_contacts`: keep only contacts with
`confidence_score >= 0.5`, then deduplicate them. -/
def filter_and_dedupe_contacts (contacts : List FullContactInfo) :
    List FullContactInfo :=
  if contacts.isEmpty then []
  else
    let high_quality := contacts.filter (fun c => decide (mkRat 1 2 ≤ c.confidence_score))
    if high_quality.isEmpty then []
    else deduplicate_contacts high_quality

/-- The accumulation and final deduplication of `IMAPClient.process_emails`:
each message's contact list is filtered and deduplicated, the survivors are
accumulated, and a final deduplication pass runs over the whole run. -/
def process_run (msgs : List (List FullContactInfo)) : List FullContactInfo :=
  if ((msgs.map filter_and_dedupe_contacts).flatten).isEmpty then
    (msgs.map filter_and_dedupe_contacts).flatten
  else deduplicate_contacts ((msgs.map filter_and_dedupe_contacts).flatten)

/-! ## Membership lemmas for the deduplicator -/

theorem mem_of_mem_dedupeStep {st : List FullContactInfo × List Str}
    {a x : FullContactInfo} (h : x ∈ (dedupeStep st a).1) : x ∈ st.1 ∨ x = a := by
  unfold dedupeStep at h
  rcases st with ⟨unique, seen⟩
  simp only at h
  split at h
  · rcases List.mem_append.1 h with h1 | h1
    · exact Or.inl h1
    · exact Or.inr (List.mem_singleton.1 h1)
  · split at h
    · split at h
      · split at h
        · exact List.mem_or_eq_of_mem_set h
        · exact Or.inl h
      · exact Or.inl h
    · rcases List.mem_append.1 h with h1 | h1
      · exact Or.inl h1
      · exact Or.inr (List.mem_singleton.1 h1)

theorem mem_of_mem_dedupeFold :
    ∀ (l : List FullContactInfo) (st : List FullContactInfo × List Str)
      (x : FullContactInfo), x ∈ (l.foldl dedupeStep st).1 → x ∈ st.1 ∨ x ∈ l := by
  intro l
  induction l with
  | nil => intro st x h; exact Or.inl h
  | cons a l ih =>
    intro st x h
    simp only [List.foldl_cons] at h
    rcases ih (dedupeStep st a) x h with h1 | h1
    · rcases mem_of_mem_dedupeStep h1 with h2 | h2
      · exact Or.inl h2
      · exact Or.inr (by simp [h2])
    · exact Or.inr (List.mem_cons_of_mem a h1)

/-- Every contact returned by `deduplicate_contacts` is one of the input
contacts. -/
theorem mem_of_mem_deduplicate {l : List FullContactInfo} {x : FullContactInfo}
    (h : x ∈ deduplicate_contacts l) : x ∈ l := by
  unfold deduplicate_contacts at h
  split at h
  · exact h
  · rcases mem_of_mem_dedupeFold l ([], []) x h with h1 | h1
    · simp at h1
    · exact h1

/-- Every contact returned by `_filter_and_dedupe_contacts` is one of the
input contacts and passed the `confidence_score >= 0.5` filter. -/
theorem mem_of_mem_filter_and_dedupe {l : List FullContactInfo}
    {x : FullContactInfo} (h : x ∈ filter_and_dedupe_contacts l) :
    x ∈ l ∧ mkRat 1 2 ≤ x.confidence_score := by
  unfold filter_and_dedupe_contacts at h
  split at h
  · simp at h
  · simp only at h
    split at h
    · simp at h
    · have h2 := mem_of_mem_deduplicate h
      have h3 := List.mem_filter.1 h2
      exact ⟨h3.1, by simpa using h3.2⟩

/-- `chooseEmail` never returns an internal address when the fallback
external address is itself not internal. -/
theorem chooseEmail_not_internal {cfg : Config} {s e : Str}
    (he : is_internal_email cfg e = false) :
    is_internal_email cfg (chooseEmail cfg s e) = false := by
  unfold chooseEmail
  split
  · next h =>
    rcases Bool.and_eq_true_iff.1 h with ⟨_, h2⟩
    simpa using h2
  · exact he

end ContactParser

namespace ContactParser

/-! ## Claim C1: quality and externality of the final output -/

/-- **C1.** Every contact in the final returned list of a run has
`confidence_score >= 0.5` and an email that is not internal-domain
classified.  The hypotheses record what the pipeline guarantees for every
accumulated per-message contact: it passed the acceptance gate
`_is_high_quality_contact`, and its email was set by the
`_process_signature_block` selection from a signature email or a
non-internal external fallback address. -/
theorem C1_final_output_quality (cfg : Config) (msgs : List (List FullContactInfo))
    (hacc : ∀ c ∈ msgs.flatten, is_high_quality_contact cfg c = true ∧
      ∃ s e, is_internal_email cfg e = false ∧ c.email = chooseEmail cfg s e) :
    ∀ c ∈ process_run msgs,
      mkRat 1 2 ≤ c.confidence_score ∧ is_internal_email cfg c.email = false := by
  intro c hc
  unfold process_run at hc
  have hin : c ∈ (msgs.map filter_and_dedupe_contacts).flatten := by
    split at hc
    · exact hc
    · exact mem_of_mem_deduplicate hc
  rcases List.mem_flatten.1 hin with ⟨fl, hfl, hcfl⟩
  rcases List.mem_map.1 hfl with ⟨msg, hmsg, rfl⟩
  have hmem := mem_of_mem_filter_and_dedupe hcfl
  have hflat : c ∈ msgs.flatten := List.mem_flatten.2 ⟨msg, hmsg, hmem.1⟩
  rcases hacc c hflat with ⟨_, s, e, hee, hch⟩
  refine ⟨hmem.2, ?_⟩
  rw [hch]
  exact chooseEmail_not_internal hee

/-- A sample configuration (one internal domain) used by witnesses. -/
def cfgW : Config :=
  { internal_domains := ["dna-technology.ru".data] }

/-- A sample external contact used by the C1 witness. -/
def contactW : FullContactInfo :=
  { fio := "Иванов Иван".data
    email := "ivanov@acme.ru".data
    phones := ["+7 (495) 111-22-33".data]
    confidence_score := mkRat 6 10 }

/-- Witness for C1 at a concrete run of one message with one contact. -/
theorem C1_witness :
    contactW ∈ process_run [[contactW]] ∧
      mkRat 1 2 ≤ contactW.confidence_score ∧
      is_internal_email cfgW contactW.email = false := by
  refine ⟨by decide, ?_⟩
  refine C1_final_output_quality cfgW [[contactW]] ?_ contactW (by decide)
  intro c hc
  have hc2 : c = contactW := by
    simpa using hc
  subst hc2
  exact ⟨by decide, [], "ivanov@acme.ru".data, by decide, by decide⟩

/-! ## Claim C3: merge rule of the deduplicator -/

/-- A contact whose normalized fio contains the letter `s`. -/
def cLowS : FullContactInfo :=
  { fio := "Ostap Suleyman".data, email := "x@acme.ru".data, confidence_score := mkRat 6 10 }

/-- The same identity with a strictly higher confidence score. -/
def cHighS : FullContactInfo :=
  { fio := "Ostap Suleyman".data, email := "x@acme.ru".data, confidence_score := mkRat 8 10 }

/-- **C3 (code bug).**  Two contacts share the deduplication identity key
(identical email and fio), the second has the strictly higher score, yet
`deduplicate_contacts` keeps the *lower*-scoring record: the duplicate
search recomputes the fio part with `re.sub(r's+', ' ', ...)` (missing
backslash, contact_processor.py line 856), so for any fio containing the
letter `s` the stored record is never found and the better duplicate is
dropped instead of replacing it. -/
theorem C3_merge_keeps_lower_score :
    dedupKey cLowS = dedupKey cHighS ∧
    cLowS.confidence_score < cHighS.confidence_score ∧
    deduplicate_contacts [cLowS, cHighS] = [cLowS] := by
  decide

/-! ## Claim C4: the deduplication identity key -/

/-- Counterexample to C4: two contacts with the same normalized email but
different fio are **not** merged — the key combines both fields, so the
claimed email-only identity fails. -/
def cSameEmailA : FullContactInfo :=
  { fio := "Ivan Petrov".data, email := "info@acme.ru".data, confidence_score := mkRat 6 10 }

/-- Second contact with the same email, different fio, higher score. -/
def cSameEmailB : FullContactInfo :=
  { fio := "Pyotr Sidorov".data, email := "info@acme.ru".data, confidence_score := mkRat 8 10 }

/-- **C4 counterexample.**  Identical normalized emails, different fio:
the deduplicator keeps both records, refuting "any two Contacts with the
same normalized email are merged regardless of whether their fio fields
differ". -/
theorem C4_counterexample :
    pyStrip (pyLower cSameEmailA.email) = pyStrip (pyLower cSameEmailB.email) ∧
    cSameEmailA.fio ≠ cSameEmailB.fio ∧
    deduplicate_contacts [cSameEmailA, cSameEmailB] = [cSameEmailA, cSameEmailB] := by
  decide

theorem lexLe_email_fio (x y : Str) :
    lexLe ('e' :: 'm' :: 'a' :: 'i' :: 'l' :: ':' :: x)
      ('f' :: 'i' :: 'o' :: ':' :: y) = true := by
  have h : ('e' : Char) < 'f' := by decide
  simp [lexLe, h]

/-- When both email and fio are present the full key is
`email:<norm-email>|fio:<norm-fio>`. -/
theorem dedupKey_both (c : FullContactInfo) (he : c.email ≠ []) (hf : c.fio ≠ []) :
    dedupKey c = ("email:".data ++ pyStrip (pyLower c.email) ++ ['|'])
      ++ ("fio:".data ++ collapseRuns isPySpace (pyStrip (pyLower c.fio))) := by
  have h1 : c.email.isEmpty = false := by simpa [List.isEmpty_iff] using he
  have h2 : c.fio.isEmpty = false := by simpa [List.isEmpty_iff] using hf
  have hsort : (keyParts c).insertionSort (fun a b => lexLe a b = true) =
      ["email:".data ++ pyStrip (pyLower c.email),
        "fio:".data ++ collapseRuns isPySpace (pyStrip (pyLower c.fio))] := by
    unfold keyParts
    rw [h1, h2]
    simp [List.insertionSort, List.orderedInsert, lexLe_email_fio]
  unfold dedupKey
  rw [hsort]
  simp [joinBar, List.intercalate, List.intersperse]

/-- A two-element list whose members both carry key parts and whose keys
differ is returned unchanged by the deduplicator. -/
theorem dedupe_pair_of_ne_key (c1 c2 : FullContactInfo)
    (h1 : keyParts c1 ≠ []) (h2 : keyParts c2 ≠ [])
    (hk : dedupKey c1 ≠ dedupKey c2) :
    deduplicate_contacts [c1, c2] = [c1, c2] := by
  have e1 : (keyParts c1).isEmpty = false := by simpa [List.isEmpty_iff] using h1
  have e2 : (keyParts c2).isEmpty = false := by simpa [List.isEmpty_iff] using h2
  have s1 : dedupeStep ([], []) c1 = ([c1], [dedupKey c1]) := by
    unfold dedupeStep
    simp [e1]
  have s2 : dedupeStep ([c1], [dedupKey c1]) c2 = ([c1, c2], [dedupKey c1, dedupKey c2]) := by
    unfold dedupeStep
    simp [e2]
    intro heq
    exact absurd heq.symm hk
  unfold deduplicate_contacts
  simp only [List.isEmpty_cons, List.foldl_cons, List.foldl_nil, s1, s2]
  simp

/-- **C4 (amended).**  The identity key combines the normalized email
*and* the normalized fio whenever both are present; consequently two
contacts with the same normalized email but different non-empty
normalized fio are *not* merged — both survive deduplication. -/
theorem C4_amended_key_combines_email_and_fio (c1 c2 : FullContactInfo)
    (he1 : c1.email ≠ []) (he2 : c2.email ≠ [])
    (hf1 : c1.fio ≠ []) (hf2 : c2.fio ≠ [])
    (hee : pyStrip (pyLower c1.email) = pyStrip (pyLower c2.email))
    (hff : collapseRuns isPySpace (pyStrip (pyLower c1.fio)) ≠
      collapseRuns isPySpace (pyStrip (pyLower c2.fio))) :
    deduplicate_contacts [c1, c2] = [c1, c2] := by
  apply dedupe_pair_of_ne_key
  · simp [keyParts, List.isEmpty_iff.not.2, he1,
      show c1.email.isEmpty = false by simpa [List.isEmpty_iff] using he1]
  · simp [keyParts,
      show c2.email.isEmpty = false by simpa [List.isEmpty_iff] using he2]
  · rw [dedupKey_both c1 he1 hf1, dedupKey_both c2 he2 hf2, hee]
    intro hcontra
    exact hff (List.append_cancel_left (List.append_cancel_left hcontra))

/-- Witness for the amended C4 at the concrete pair above. -/
theorem C4_amended_witness :
    deduplicate_contacts [cSameEmailA, cSameEmailB] = [cSameEmailA, cSameEmailB] :=
  C4_amended_key_combines_email_and_fio cSameEmailA cSameEmailB
    (by decide) (by decide) (by decide) (by decide) (by decide) (by decide)

/-! ## Claim C5: idempotence of the deduplicator -/

/-- First contact: fio `Osap`; its buggy duplicate-search key collapses the
`s` and becomes `fio:o ap`. -/
def cIdemA : FullContactInfo := { fio := "Osap".data, confidence_score := mkRat 1 2 }

/-- Second contact: fio `O Ap`, true key `fio:o ap`. -/
def cIdemB : FullContactInfo := { fio := "O Ap".data, confidence_score := mkRat 1 2 }

/-- Third contact: fio `O  Ap` (two spaces), true key also `fio:o ap`,
higher score — it replaces `cIdemA` (found through the buggy search)
instead of `cIdemB`. -/
def cIdemC : FullContactInfo := { fio := "O  Ap".data, confidence_score := mkRat 9 10 }

/-- **C5 (code bug).**  `deduplicate_contacts` is *not* idempotent: on the
list `[cIdemA, cIdemB, cIdemC]` the first pass returns `[cIdemC, cIdemB]`
(two records with the same true key, because the buggy `re.sub(r's+', ...)`
search replaced the wrong record) and the second pass drops `cIdemB`. -/
theorem C5_not_idempotent :
    deduplicate_contacts [cIdemA, cIdemB, cIdemC] = [cIdemC, cIdemB] ∧
    deduplicate_contacts (deduplicate_contacts [cIdemA, cIdemB, cIdemC]) = [cIdemC] ∧
    deduplicate_contacts (deduplicate_contacts [cIdemA, cIdemB, cIdemC]) ≠
      deduplicate_contacts [cIdemA, cIdemB, cIdemC] := by
  decide

end ContactParser

namespace ContactParser

/-! ## Claim C6: the quality analysis -/

/-- Spec-side component: fio present with at least 2 tokens (weight 0.30). -/
def fio_component (c : FullContactInfo) : Bool :=
  !c.fio.isEmpty && decide (2 ≤ (pySplitWs c.fio).length)

/-- Spec-side component: position present (weight 0.10). -/
def position_component (c : FullContactInfo) : Bool := !c.position.isEmpty

/-- Spec-side component: company present (weight 0.20). -/
def company_component (c : FullContactInfo) : Bool := !c.company.isEmpty

/-- Spec-side component: any phone present (weight 0.20). -/
def phone_component (c : FullContactInfo) : Bool := !c.phones.isEmpty

/-- Spec-side component: email present and containing `@` (weight 0.10). -/
def email_component (c : FullContactInfo) : Bool :=
  !c.email.isEmpty && c.email.contains '@'

/-- Spec-side component: address present (weight 0.10). -/
def address_component (c : FullContactInfo) : Bool := !c.address.isEmpty

/-- The weighted sum over satisfied components announced by the spec. -/
def spec_weighted_sum (c : FullContactInfo) : ℚ :=
  (if fio_component c then 3/10 else 0) +
  (if position_component c then 1/10 else 0) +
  (if company_component c then 2/10 else 0) +
  (if phone_component c then 2/10 else 0) +
  (if email_component c then 1/10 else 0) +
  (if address_component c then 1/10 else 0)

/-- The issues the analysis actually records: one fixed message per
*unsatisfied* component, for every component except email. -/
def spec_recorded_issues (c : FullContactInfo) : List Str :=
  (if fio_component c then [] else ["ФИО неполное или отсутствует".data]) ++
  (if position_component c then [] else ["Должность не определена".data]) ++
  (if company_component c then [] else ["Компания не найдена".data]) ++
  (if phone_component c then [] else ["Телефоны не найдены".data]) ++
  (if address_component c then [] else ["Адрес не найден".data])

/-- **C6 counterexample.**  The claim says *each* of the six components is
recorded as a satisfied/unsatisfied issue.  For the empty contact all six
components are unsatisfied, yet only five issues are recorded; a contact
that differs only in its email gets a different score but the *same*
issue list — the email component is never recorded. -/
theorem C6_counterexample :
    (analyze_contact_quality {}).2.length = 5 ∧
    (analyze_contact_quality { email := "a@b.ru".data }).2 =
      (analyze_contact_quality {}).2 ∧
    (analyze_contact_quality { email := "a@b.ru".data }).1 ≠
      (analyze_contact_quality {}).1 := by
  refine ⟨?_, ?_, ?_⟩
  · simp [analyze_contact_quality]
  · simp [analyze_contact_quality]
  · simp only [analyze_contact_quality]
    norm_num [round2, round_eq]

/-- **C6 (amended).**  The analysis returns exactly the weighted sum of the
satisfied components (rounding to two decimals is exact here), and records
an issue for each *unsatisfied* component among fio, position, company,
phones and address; the email component changes the score but is recorded
in neither the satisfied nor the unsatisfied case. -/
theorem C6_amended_quality_analysis (c : FullContactInfo) :
    analyze_contact_quality c = (spec_weighted_sum c, spec_recorded_issues c) := by
  unfold analyze_contact_quality spec_weighted_sum spec_recorded_issues
  cases h1 : fio_component c <;> cases h2 : position_component c <;>
    cases h3 : company_component c <;> cases h4 : phone_component c <;>
    cases h5 : email_component c <;> cases h6 : address_component c <;>
      simp only [fio_component, position_component, company_component,
        phone_component, email_component, address_component] at h1 h2 h3 h4 h5 h6 <;>
      simp only [h1, h2, h3, h4, h5, h6, if_true, if_false, Bool.false_eq_true,
        List.nil_append, List.append_nil, Prod.mk.injEq] <;>
      exact ⟨by norm_num [round2, round_eq], by simp⟩

end ContactParser

namespace ContactParser

/-! ## Claim C10: `_correct_email_time` (contact_processor.py)

`datetime.strptime(date_str, "%d.%m.%Y %H:%M")`, `+ timedelta(hours=4)`,
`strftime` back; any exception (unparsable string, or the `OverflowError`
raised when the shifted date would leave year 9999) is swallowed by the
bare `except:` and the input string is returned unchanged. -/

/-- A naive `datetime` value. -/
structure DateTime where
  year : ℕ
  month : ℕ
  day : ℕ
  hour : ℕ
  minute : ℕ
deriving DecidableEq, Repr

/-- Gregorian leap year, as the `datetime` module computes it. -/
def isLeapYear (y : ℕ) : Bool :=
  y % 4 = 0 && (y % 100 ≠ 0 || y % 400 = 0)

/-- Days in a month of a year. -/
def daysInMonth (y m : ℕ) : ℕ :=
  if m = 2 then (if isLeapYear y then 29 else 28)
  else if m = 4 || m = 6 || m = 9 || m = 11 then 30
  else 31

/-- Numeric value of an ASCII digit character. -/
def digitVal (c : Char) : ℕ := c.toNat - 48

/-- Exactly two digit characters whose value lies in `[lo, hi]` — one
alternative of a CPython `_strptime` field pattern such as
`3[01]|[12]\d|0[1-9]` (day), expressed by its value range. -/
def parseTwoDigits (lo hi : ℕ) : Str → Option (ℕ × Str)
  | a :: b :: rest =>
    if a.isDigit && b.isDigit then
      let v := 10 * digitVal a + digitVal b
      if lo ≤ v ∧ v ≤ hi then some (v, rest) else none
    else none
  | _ => none

/-- Exactly one digit character whose value lies in `[lo, hi]`. -/
def parseOneDigit (lo hi : ℕ) : Str → Option (ℕ × Str)
  | a :: rest =>
    if a.isDigit then
      if lo ≤ digitVal a ∧ digitVal a ≤ hi then some (digitVal a, rest) else none
    else none
  | [] => none

/-- A `_strptime` numeric field: the two-digit alternative is tried first
(the regex lists the longer alternatives first); when it fails, or its
continuation fails, re parsing backtracks to the one-digit alternative. -/
def parseNumField (lo2 hi2 lo1 hi1 : ℕ) (s : Str)
    (k : ℕ → Str → Option DateTime) : Option DateTime :=
  match parseTwoDigits lo2 hi2 s with
  | some (v, rest) =>
    match k v rest with
    | some r => some r
    | none =>
      match parseOneDigit lo1 hi1 s with
      | some (w, rest1) => k w rest1
      | none => none
  | none =>
    match parseOneDigit lo1 hi1 s with
    | some (w, rest1) => k w rest1
    | none => none

/-- Exactly four digit characters (the `%Y` pattern `\d\d\d\d`). -/
def parseFourDigits : Str → Option (ℕ × Str)
  | a :: b :: c :: d :: rest =>
    if a.isDigit && b.isDigit && c.isDigit && d.isDigit then
      some (1000 * digitVal a + 100 * digitVal b + 10 * digitVal c + digitVal d, rest)
    else none
  | _ => none

/-- A literal character of the format string. -/
def expectChar (c : Char) : Str → Option Str
  | a :: rest => if a = c then some rest else none
  | [] => none

/-- `\s+`: at least one whitespace character, consumed greedily (the next
format directive is a digit field, so maximal munch is exact). -/
def parseWsPlus : Str → Option Str
  | a :: rest => if isPySpace a then some (rest.dropWhile isPySpace) else none
  | [] => none

/-- `datetime.strptime(s, "%d.%m.%Y %H:%M")`: the regex built by CPython
`_strptime` matched against the whole string, followed by the calendar
validation the `datetime` constructor performs (`ValueError` = `none`). -/
def parse_py_datetime (s : Str) : Option DateTime :=
  parseNumField 1 31 1 9 s fun day s1 =>
  (expectChar '.' s1).bind fun s2 =>
  parseNumField 1 12 1 9 s2 fun mon s3 =>
  (expectChar '.' s3).bind fun s4 =>
  (parseFourDigits s4).bind fun (yr, s5) =>
  (parseWsPlus s5).bind fun s6 =>
  parseNumField 0 23 0 9 s6 fun hr s7 =>
  (expectChar ':' s7).bind fun s8 =>
  parseNumField 0 59 0 9 s8 fun mi s9 =>
  if s9.isEmpty then
    if 1 ≤ yr ∧ 1 ≤ day ∧ day ≤ daysInMonth yr mon then
      some ⟨yr, mon, day, hr, mi⟩
    else none
  else none

/-- Two-digit zero-padded decimal rendering. -/
def pad2 (n : ℕ) : Str := [Nat.digitChar (n / 10 % 10), Nat.digitChar (n % 10)]

/-- Four-digit zero-padded decimal rendering. -/
def pad4 (n : ℕ) : Str :=
  [Nat.digitChar (n / 1000 % 10), Nat.digitChar (n / 100 % 10),
    Nat.digitChar (n / 10 % 10), Nat.digitChar (n % 10)]

/-- `dt.strftime("%d.%m.%Y %H:%M")` (every parsed year has four digits, so
the `%Y` rendering is four-digit zero-padded on all reachable inputs). -/
def format_py_datetime (dt : DateTime) : Str :=
  pad2 dt.day ++ '.' :: (pad2 dt.month ++ '.' :: (pad4 dt.year ++
    ' ' :: (pad2 dt.hour ++ ':' :: pad2 dt.minute)))

/-- `dt + timedelta(hours=4)` — `none` models the `OverflowError` raised
when the result would pass `datetime.MAXYEAR` (9999). -/
def addHours4 (dt : DateTime) : Option DateTime :=
  if dt.hour + 4 ≤ 23 then some { dt with hour := dt.hour + 4 }
  else
    let h := dt.hour + 4 - 24
    if dt.day + 1 ≤ daysInMonth dt.year dt.month then
      some { dt with hour := h, day := dt.day + 1 }
    else if dt.month + 1 ≤ 12 then
      some { dt with hour := h, day := 1, month := dt.month + 1 }
    else if dt.year + 1 ≤ 9999 then
      some { dt with hour := h, day := 1, month := 1, year := dt.year + 1 }
    else none

/-- `ContactProcessor._correct_email_time`. -/
def correct_email_time (s : Str) : Str :=
  if s.isEmpty then []
  else
    match parse_py_datetime s with
    | some dt =>
      match addHours4 dt with
      | some dt2 => format_py_datetime dt2
      | none => s
    | none => s

/-- The invariant the `datetime` constructor maintains. -/
def ValidDT (dt : DateTime) : Prop :=
  1 ≤ dt.year ∧ dt.year ≤ 9999 ∧ 1 ≤ dt.month ∧ dt.month ≤ 12 ∧
    1 ≤ dt.day ∧ dt.day ≤ daysInMonth dt.year dt.month ∧
    dt.hour ≤ 23 ∧ dt.minute ≤ 59

end ContactParser

namespace ContactParser

/-! ### Arithmetic and digit lemmas for the date functions -/

theorem isDigit_digitChar {k : ℕ} (h : k < 10) : (Nat.digitChar k).isDigit = true := by
  interval_cases k <;> decide

theorem digitVal_digitChar {k : ℕ} (h : k < 10) : digitVal (Nat.digitChar k) = k := by
  interval_cases k <;> decide

theorem isPySpace_digitChar {k : ℕ} (h : k < 10) :
    isPySpace (Nat.digitChar k) = false := by
  interval_cases k <;> decide

theorem daysInMonth_le_31 (y m : ℕ) : daysInMonth y m ≤ 31 := by
  unfold daysInMonth
  split
  · split <;> norm_num
  · split <;> norm_num

theorem one_le_daysInMonth (y m : ℕ) : 1 ≤ daysInMonth y m := by
  unfold daysInMonth
  split
  · split <;> norm_num
  · split <;> norm_num

theorem parseTwoDigits_pad2 {lo hi d : ℕ} (h1 : lo ≤ d) (h2 : d ≤ hi) (h3 : d ≤ 99)
    (rest : Str) : parseTwoDigits lo hi (pad2 d ++ rest) = some (d, rest) := by
  have ha : d / 10 % 10 < 10 := Nat.mod_lt _ (by norm_num)
  have hb : d % 10 < 10 := Nat.mod_lt _ (by norm_num)
  have hd : 10 * (d / 10 % 10) + d % 10 = d := by omega
  unfold pad2 parseTwoDigits
  simp only [List.cons_append, List.nil_append, isDigit_digitChar ha,
    isDigit_digitChar hb, Bool.and_self, if_true, digitVal_digitChar ha,
    digitVal_digitChar hb, hd]
  simp [h1, h2]

theorem parseFourDigits_pad4 {y : ℕ} (h : y ≤ 9999) (rest : Str) :
    parseFourDigits (pad4 y ++ rest) = some (y, rest) := by
  have ha : y / 1000 % 10 < 10 := Nat.mod_lt _ (by norm_num)
  have hb : y / 100 % 10 < 10 := Nat.mod_lt _ (by norm_num)
  have hc : y / 10 % 10 < 10 := Nat.mod_lt _ (by norm_num)
  have hd : y % 10 < 10 := Nat.mod_lt _ (by norm_num)
  have hy : 1000 * (y / 1000 % 10) + 100 * (y / 100 % 10) + 10 * (y / 10 % 10) + y % 10 = y := by
    omega
  unfold pad4 parseFourDigits
  simp only [List.cons_append, List.nil_append, isDigit_digitChar ha,
    isDigit_digitChar hb, isDigit_digitChar hc, isDigit_digitChar hd,
    Bool.and_self, if_true, digitVal_digitChar ha, digitVal_digitChar hb,
    digitVal_digitChar hc, digitVal_digitChar hd, hy]

theorem parseNumField_of_two {lo2 hi2 lo1 hi1 : ℕ} {s : Str}
    {k : ℕ → Str → Option DateTime} {v : ℕ} {rest : Str} {r : DateTime}
    (hp : parseTwoDigits lo2 hi2 s = some (v, rest)) (hk : k v rest = some r) :
    parseNumField lo2 hi2 lo1 hi1 s k = some r := by
  unfold parseNumField
  rw [hp]
  simp only [hk]

theorem parseTwoDigits_bound {lo hi : ℕ} {s rest : Str} {v : ℕ}
    (h : parseTwoDigits lo hi s = some (v, rest)) : lo ≤ v ∧ v ≤ hi := by
  unfold parseTwoDigits at h
  split at h
  · split at h
    · simp only at h
      split at h
      · rename_i hrange
        simp only [Option.some.injEq, Prod.mk.injEq] at h
        obtain ⟨h1, h2⟩ := h
        subst h1
        exact hrange
      · exact absurd h (by simp)
    · exact absurd h (by simp)
  · exact absurd h (by simp)

theorem parseOneDigit_bound {lo hi : ℕ} {s rest : Str} {v : ℕ}
    (h : parseOneDigit lo hi s = some (v, rest)) : lo ≤ v ∧ v ≤ hi := by
  unfold parseOneDigit at h
  split at h
  · split at h
    · split at h
      · rename_i hrange
        simp only [Option.some.injEq, Prod.mk.injEq] at h
        obtain ⟨h1, h2⟩ := h
        subst h1
        exact hrange
      · exact absurd h (by simp)
    · exact absurd h (by simp)
  · exact absurd h (by simp)

theorem parseNumField_bound {lo2 hi2 lo1 hi1 : ℕ} {s : Str}
    {k : ℕ → Str → Option DateTime} {r : DateTime}
    (h : parseNumField lo2 hi2 lo1 hi1 s k = some r)
    (hlo : lo2 ≤ lo1) (hhi : hi1 ≤ hi2) :
    ∃ v rest, lo2 ≤ v ∧ v ≤ hi2 ∧ k v rest = some r := by
  unfold parseNumField at h
  split at h
  · rename_i v rest hp
    have hb := parseTwoDigits_bound hp
    split at h
    · rename_i r2 hk
      exact ⟨v, rest, hb.1, hb.2, by rw [hk, h]⟩
    · split at h
      · rename_i w rest1 hq
        have hb1 := parseOneDigit_bound hq
        exact ⟨w, rest1, le_trans hlo hb1.1, le_trans hb1.2 hhi, h⟩
      · exact absurd h (by simp)
  · split at h
    · rename_i w rest1 hq
      have hb1 := parseOneDigit_bound hq
      exact ⟨w, rest1, le_trans hlo hb1.1, le_trans hb1.2 hhi, h⟩
    · exact absurd h (by simp)

theorem digitVal_lt_10 {c : Char} (h : c.isDigit = true) : digitVal c < 10 := by
  unfold Char.isDigit at h
  simp only [Bool.and_eq_true, decide_eq_true_eq] at h
  obtain ⟨h1, h2⟩ := h
  have h9 : c.val.toNat ≤ 57 := by
    have := UInt32.le_def.1 h2
    simpa [UInt32.toNat, BitVec.le_def] using this
  unfold digitVal
  unfold Char.toNat
  omega

theorem parseFourDigits_bound {s rest : Str} {v : ℕ}
    (h : parseFourDigits s = some (v, rest)) : v ≤ 9999 := by
  unfold parseFourDigits at h
  split at h
  · split at h
    · rename_i hdig
      simp only [Bool.and_eq_true] at hdig
      obtain ⟨⟨⟨d1, d2⟩, d3⟩, d4⟩ := hdig
      have g1 := digitVal_lt_10 d1
      have g2 := digitVal_lt_10 d2
      have g3 := digitVal_lt_10 d3
      have g4 := digitVal_lt_10 d4
      simp only [Option.some.injEq, Prod.mk.injEq] at h
      obtain ⟨h1, h2⟩ := h
      omega
    · exact absurd h (by simp)
  · exact absurd h (by simp)

end ContactParser

namespace ContactParser

theorem expectChar_cons (c : Char) (rest : Str) : expectChar c (c :: rest) = some rest := by
  unfold expectChar
  simp

/-- Every value produced by the parser satisfies the `datetime` invariant. -/
theorem parse_py_datetime_valid {s : Str} {dt : DateTime}
    (h : parse_py_datetime s = some dt) : ValidDT dt := by
  unfold parse_py_datetime at h
  obtain ⟨day, s1, hday1, hday31, h⟩ := parseNumField_bound h (by norm_num) (by norm_num)
  simp only [Option.bind_eq_some] at h
  obtain ⟨s2, _, h⟩ := h
  obtain ⟨mon, s3, hmon1, hmon12, h⟩ := parseNumField_bound h (by norm_num) (by norm_num)
  simp only [Option.bind_eq_some] at h
  obtain ⟨s4, _, ⟨yr, s5⟩, hyr, s6, _, h⟩ := h
  have hy9999 := parseFourDigits_bound hyr
  obtain ⟨hr, s7, hhr0, hhr23, h⟩ := parseNumField_bound h (by norm_num) (by norm_num)
  simp only [Option.bind_eq_some] at h
  obtain ⟨s8, _, h⟩ := h
  obtain ⟨mi, s9, hmi0, hmi59, h⟩ := parseNumField_bound h (by norm_num) (by norm_num)
  split at h
  · split at h
    · rename_i hcond
      obtain ⟨hy1, hd1, hd2⟩ := hcond
      have hdt := Option.some.inj h
      subst hdt
      exact ⟨hy1, hy9999, hmon1, hmon12, hd1, hd2, hhr23, hmi59⟩
    · exact absurd h (by simp)
  · exact absurd h (by simp)

/-- Formatting a valid datetime and parsing it back is the identity. -/
theorem parse_format_roundtrip {dt : DateTime} (h : ValidDT dt) :
    parse_py_datetime (format_py_datetime dt) = some dt := by
  obtain ⟨y, mo, d, hr, mi⟩ := dt
  obtain ⟨hy1, hy2, hm1, hm2, hd1, hd2, hh, hmin⟩ := h
  replace hy1 : 1 ≤ y := hy1
  replace hy2 : y ≤ 9999 := hy2
  replace hm1 : 1 ≤ mo := hm1
  replace hm2 : mo ≤ 12 := hm2
  replace hd1 : 1 ≤ d := hd1
  replace hd2 : d ≤ daysInMonth y mo := hd2
  replace hh : hr ≤ 23 := hh
  replace hmin : mi ≤ 59 := hmin
  have hd99 : d ≤ 99 := le_trans hd2 (le_trans (daysInMonth_le_31 y mo) (by norm_num))
  unfold format_py_datetime parse_py_datetime
  apply parseNumField_of_two
    (parseTwoDigits_pad2 hd1 (le_trans hd2 (daysInMonth_le_31 y mo)) hd99 _)
  simp only [expectChar_cons, Option.some_bind]
  apply parseNumField_of_two (parseTwoDigits_pad2 hm1 hm2 (by omega) _)
  simp only [expectChar_cons, Option.some_bind]
  rw [parseFourDigits_pad4 hy2]
  simp only [Option.some_bind]
  have hws : parseWsPlus (' ' :: (pad2 hr ++ ':' :: pad2 mi)) =
      some (pad2 hr ++ ':' :: pad2 mi) := by
    have hsp : isPySpace ' ' = true := by decide
    have hnd : isPySpace (Nat.digitChar (hr / 10 % 10)) = false :=
      isPySpace_digitChar (Nat.mod_lt _ (by norm_num))
    simp only [parseWsPlus, hsp, if_true, Option.some.injEq]
    unfold pad2
    simp [List.dropWhile_cons, hnd]
  rw [hws]
  simp only [Option.some_bind]
  apply parseNumField_of_two (parseTwoDigits_pad2 (Nat.zero_le hr) hh (by omega) _)
  simp only [expectChar_cons, Option.some_bind]
  rw [show (pad2 mi : Str) = pad2 mi ++ [] from (List.append_nil _).symm]
  apply parseNumField_of_two (parseTwoDigits_pad2 (Nat.zero_le mi) hmin (by omega) _)
  simp [hy1, hd1, hd2]

/-- Shifting a valid datetime by four hours stays valid. -/
theorem addHours4_valid {dt dt2 : DateTime} (h : ValidDT dt)
    (ha : addHours4 dt = some dt2) : ValidDT dt2 := by
  obtain ⟨hy1, hy2, hm1, hm2, hd1, hd2, hh, hmin⟩ := h
  unfold addHours4 at ha
  split at ha
  · rename_i hcase
    cases ha
    exact ⟨hy1, hy2, hm1, hm2, hd1, hd2, hcase, hmin⟩
  · rename_i hcase
    simp only at ha
    split at ha
    · rename_i hday
      cases ha
      refine ⟨hy1, hy2, hm1, hm2, ?_, ?_, ?_, hmin⟩
      · show 1 ≤ dt.day + 1
        omega
      · show dt.day + 1 ≤ daysInMonth dt.year dt.month
        exact hday
      · show dt.hour + 4 - 24 ≤ 23
        omega
    · split at ha
      · rename_i hmon
        cases ha
        refine ⟨hy1, hy2, ?_, ?_, ?_, ?_, ?_, hmin⟩
        · show 1 ≤ dt.month + 1
          omega
        · show dt.month + 1 ≤ 12
          exact hmon
        · show (1:ℕ) ≤ 1
          exact le_refl 1
        · show (1:ℕ) ≤ daysInMonth dt.year (dt.month + 1)
          exact one_le_daysInMonth _ _
        · show dt.hour + 4 - 24 ≤ 23
          omega
      · split at ha
        · rename_i hyr
          cases ha
          refine ⟨?_, ?_, ?_, ?_, ?_, ?_, ?_, hmin⟩
          · show 1 ≤ dt.year + 1
            omega
          · show dt.year + 1 ≤ 9999
            exact hyr
          · show (1:ℕ) ≤ 1
            exact le_refl 1
          · show (1:ℕ) ≤ 12
            norm_num
          · show (1:ℕ) ≤ 1
            exact le_refl 1
          · show (1:ℕ) ≤ daysInMonth (dt.year + 1) 1
            exact one_le_daysInMonth _ _
          · show dt.hour + 4 - 24 ≤ 23
            omega
        · exact absurd ha (by simp)

/-- The four-hour shift always changes the value (some field moves). -/
theorem addHours4_ne {dt dt2 : DateTime} (ha : addHours4 dt = some dt2) :
    dt2 ≠ dt := by
  intro heq
  rw [heq] at ha
  unfold addHours4 at ha
  split at ha
  · have h2 : dt.hour + 4 = dt.hour := congrArg DateTime.hour (Option.some.inj ha)
    omega
  · rename_i hcase
    simp only at ha
    split at ha
    · have h2 : dt.day + 1 = dt.day := congrArg DateTime.day (Option.some.inj ha)
      omega
    · split at ha
      · have h2 : dt.month + 1 = dt.month := congrArg DateTime.month (Option.some.inj ha)
        omega
      · split at ha
        · have h2 : dt.year + 1 = dt.year := congrArg DateTime.year (Option.some.inj ha)
          omega
        · exact absurd ha (by simp)

end ContactParser

namespace ContactParser

/-- **C10 counterexample.**  `"31.12.9999 23:00"` parses in the format
`%d.%m.%Y %H:%M`, yet `_correct_email_time` stores the supplied string
verbatim: the 4-hour shift overflows `datetime.MAXYEAR` and the resulting
`OverflowError` is swallowed by the bare `except:`, returning the input. -/
theorem C10_counterexample :
    parse_py_datetime ("31.12.9999 23:00".data) = some ⟨9999, 12, 31, 23, 0⟩ ∧
    correct_email_time ("31.12.9999 23:00".data) = "31.12.9999 23:00".data := by
  constructor
  · decide
  · decide

/-- **C10 (amended).**  If the supplied provenance date string parses in
the format `%d.%m.%Y %H:%M` *and* the 4-hour shift stays representable
(year ≤ 9999), the stored `email_date` is the shifted timestamp
re-formatted the same way — never the input verbatim; if parsing fails, or
the shift overflows year 9999, the input string is stored unchanged. -/
theorem C10_amended_time_correction (s : Str) :
    (∀ dt, parse_py_datetime s = some dt →
      (∀ dt2, addHours4 dt = some dt2 →
        correct_email_time s = format_py_datetime dt2 ∧ correct_email_time s ≠ s) ∧
      (addHours4 dt = none → correct_email_time s = s)) ∧
    (parse_py_datetime s = none → correct_email_time s = s) := by
  constructor
  · intro dt hp
    have hsne : s.isEmpty = false := by
      cases s with
      | nil => simp [parse_py_datetime, parseNumField, parseTwoDigits, parseOneDigit] at hp
      | cons a l => rfl
    constructor
    · intro dt2 ha
      have heq : correct_email_time s = format_py_datetime dt2 := by
        unfold correct_email_time
        rw [hsne, hp]
        simp [ha]
      refine ⟨heq, ?_⟩
      intro hcontra
      rw [heq] at hcontra
      have hv := parse_py_datetime_valid hp
      have hv2 := addHours4_valid hv ha
      have hrt := parse_format_roundtrip hv2
      rw [hcontra, hp] at hrt
      exact absurd (Option.some.inj hrt).symm (addHours4_ne ha)
    · intro ha
      unfold correct_email_time
      rw [hsne, hp]
      simp [ha]
  · intro hp
    unfold correct_email_time
    cases hs : s.isEmpty
    · rw [hp]
      simp
    · have : s = [] := List.isEmpty_iff.1 hs
      simp [this]

/-- Witness for the amended C10: `"29.07.2025 22:10"` parses, shifts to
`"30.07.2025 02:10"` (day rollover), and the stored value differs from the
input. -/
theorem C10_witness :
    parse_py_datetime ("29.07.2025 22:10".data) = some ⟨2025, 7, 29, 22, 10⟩ ∧
    correct_email_time ("29.07.2025 22:10".data) = "30.07.2025 02:10".data ∧
    correct_email_time ("29.07.2025 22:10".data) ≠ "29.07.2025 22:10".data := by
  have h := (C10_amended_time_correction ("29.07.2025 22:10".data)).1
    ⟨2025, 7, 29, 22, 10⟩ (by decide)
  have h2 := h.1 ⟨2025, 7, 30, 2, 10⟩ (by decide)
  refine ⟨by decide, ?_, h2.2⟩
  rw [h2.1]
  decide

end ContactParser

namespace ContactParser

/-! ## Prefix-regex helpers for the line filters

Each configured line pattern is anchored (`re.match`) and every bounded
quantifier in them is followed by a character outside its class, so greedy
run-consumption is exact. -/

/-- A literal string at the current position. -/
def expectStr (lit : Str) : Str → Option Str := fun s =>
  if lit.isPrefixOf s then some (s.drop lit.length) else none

/-- `\d{lo,hi}` followed by a non-digit: the maximal digit run must have
length in `[lo, hi]`. -/
def parseDigitsRun (lo hi : ℕ) (s : Str) : Option Str :=
  let r := s.takeWhile (fun c => c.isDigit)
  if lo ≤ r.length ∧ r.length ≤ hi then some (s.dropWhile (fun c => c.isDigit))
  else none

/-- `\d{n}`: exactly `n` digit characters. -/
def parseDigitsExact (n : ℕ) (s : Str) : Option Str :=
  if (s.take n).length = n ∧ (s.take n).all (fun c => c.isDigit) then
    some (s.drop n)
  else none

/-- `[а-я]` (lower-case Cyrillic range, without `ё`). -/
def isCyrLowerAZ (c : Char) : Bool :=
  0x430 ≤ c.toNat && c.toNat ≤ 0x44F

/-- `[а-я]+` followed by a character outside the class. -/
def parseCyrRun1 (s : Str) : Option Str :=
  if 1 ≤ (s.takeWhile isCyrLowerAZ).length then some (s.dropWhile isCyrLowerAZ)
  else none

/-- `re.match(r'^\d{1,2}:\d{2}, \d{1,2} [а-я]+ \d{4}', line)`. -/
def matchTimestampLine (s : Str) : Bool :=
  ((((((((parseDigitsRun 1 2 s).bind (expectChar ':')).bind
    (parseDigitsExact 2)).bind (expectStr (", ".data))).bind
    (parseDigitsRun 1 2)).bind (expectChar ' ')).bind parseCyrRun1).bind
    (fun r => (expectChar ' ' r).bind (parseDigitsExact 4))).isSome

/-- `re.match(r'^(от кого|отправлено|subject|from|sent):', line)`. -/
def matchHeaderLine (s : Str) : Bool :=
  [("от кого").data, ("отправлено").data, "subject".data, "from".data,
    "sent".data].any (fun h => (h ++ [':']).isPrefixOf s)

/-- `^\d{1,2}:\d{2}, \d{1,2}` (timestamp prefix in `_deep_clean_email_body`). -/
def matchTech1 (s : Str) : Bool :=
  ((((parseDigitsRun 1 2 s).bind (expectChar ':')).bind
    (parseDigitsExact 2)).bind (fun r =>
      (expectStr (", ".data) r).bind (parseDigitsRun 1 2))).isSome

/-- `^\d{4}-\d{2}-\d{2}`. -/
def matchTech2 (s : Str) : Bool :=
  ((((parseDigitsExact 4 s).bind (expectChar '-')).bind
    (parseDigitsExact 2)).bind (fun r =>
      (expectChar '-' r).bind (parseDigitsExact 2))).isSome

/-- `^on \d{1,2}/`. -/
def matchTech3 (s : Str) : Bool :=
  (((expectStr ("on ".data) s).bind (parseDigitsRun 1 2)).bind
    (expectChar '/')).isSome

/-- `^в \d{1,2}:\d{2}`. -/
def matchTech4 (s : Str) : Bool :=
  ((((expectStr ("в ".data) s).bind (parseDigitsRun 1 2)).bind
    (expectChar ':')).bind (parseDigitsExact 2)).isSome

/-- `^\d{2}\.\d{2}\.\d{4}.*пишет` — `.` does not cross a newline and the
lines tested contain none, so `.*пишет` holds iff the remainder contains
the word. -/
def matchTech5 (s : Str) : Bool :=
  match ((((parseDigitsExact 2 s).bind (expectChar '.')).bind
    (parseDigitsExact 2)).bind (fun r =>
      (expectChar '.' r).bind (parseDigitsExact 4))) with
  | some rest => subOf ("пишет".data) rest
  | none => false

/-! ## Signature extraction and cleaning (contact_processor.py) -/

/-- The hard-coded `critical_internal_markers` list. -/
def critical_internal_markers : List Str :=
  [("telegram: @dna_tech_rus").data, ("@dna_tech_rus").data,
    ("dna-technology.ru").data, ("варшавское шоссе, дом 125ж").data,
    ("корпус 5").data, ("+7 (495) 640-17-71").data, ("доб. 2030").data,
    ("от гоголева").data, ("от фролова").data, ("светлана воронова").data,
    ("мария гоголева").data, ("мария фролова").data, ("сучкова наталья").data,
    ("youtube | rutube").data, (">youtube").data]

/-- `ContactProcessor._deep_filter_internal_markers`: drop empty lines and
lines carrying an internal marker, a blacklisted company, a timestamp, a
chain header or quoting; keep the rest verbatim. -/
def deep_filter_internal_markers (cfg : Config) (text : Str) : Str :=
  if text.isEmpty then []
  else
    let lines := pySplitOn '\n' text
    let filtered := lines.filter (fun line =>
      let ll := pyStrip (pyLower line)
      if ll.isEmpty then false
      else
        let is_internal :=
          critical_internal_markers.any (fun m => subOf m ll) ||
          cfg.company_blacklist.any (fun b => subOf b ll) ||
          matchTimestampLine ll || matchHeaderLine ll ||
          (">>>".data).isPrefixOf ll || (">>".data).isPrefixOf ll
        !is_internal)
    List.intercalate ['\n'] filtered

/-- The signature markers of `_extract_clean_signatures`. -/
def signature_markers : List Str :=
  [("с уважением").data, ("best regards").data, ("всего доброго").data,
    ("с наилучшими пожеланиями").data, "---".data, "____".data,
    "====".data, "--".data]

/-- The per-line scan of `_extract_clean_signatures`: a marker line under
80 characters opens a 20-line window which is deep-filtered and kept when
its stripped remainder is longer than 15 characters. -/
def sigBlocksAux (cfg : Config) : List Str → List Str
  | [] => []
  | line :: rest =>
    let line_lower := pyStrip (pyLower line)
    let hit := signature_markers.any
      (fun m => subOf m line_lower && decide (line_lower.length < 80))
    let tail := sigBlocksAux cfg rest
    if hit then
      let block := List.intercalate ['\n'] ((line :: rest).take 20)
      let clean := deep_filter_internal_markers cfg block
      if decide (15 < (pyStrip clean).length) then clean :: tail else tail
    else tail

/-- `ContactProcessor._extract_clean_signatures`. -/
def extract_clean_signatures (cfg : Config) (email_body : Str) : List Str :=
  let lines := pySplitOn '\n' email_body
  let blocks := sigBlocksAux cfg lines
  if blocks.isEmpty && decide (8 < lines.length) then
    let last_block := List.intercalate ['\n'] (lines.drop (lines.length - 15))
    let clean := deep_filter_internal_markers cfg last_block
    if decide (20 < (pyStrip clean).length) then [clean] else []
  else blocks

/-- The chain headers skipped by `_deep_clean_email_body`. -/
def chain_headers : List Str :=
  [("от кого:").data, ("от:").data, "from:".data, "sent:".data,
    ("отправлено:").data, "subject:".data, ("тема:").data, "cc:".data,
    ("копия:").data, "bcc:".data]

/-- `ContactProcessor._deep_clean_email_body`. -/
def deep_clean_email_body (_cfg : Config) (email_body : Str) : Str :=
  let lines := pySplitOn '\n' email_body
  let clean := lines.filter (fun line =>
    let ll := pyStrip (pyLower line)
    if ll.isEmpty then false
    else
      let junk :=
        chain_headers.any (fun h => h.isPrefixOf ll) ||
        matchTech1 ll || matchTech2 ll || matchTech3 ll || matchTech4 ll ||
        matchTech5 ll ||
        critical_internal_markers.any (fun m => subOf m ll)
      !junk)
  List.intercalate ['\n'] clean

end ContactParser

namespace ContactParser

/-! ## Claim C9: the `process_email_signature` boundary -/

/-- Python values as they may arrive at the boundary of
`process_email_signature` (dynamic typing). -/
inductive PyVal where
  | str : Str → PyVal
  | list : List PyVal → PyVal
  | pynone : PyVal
  | int : ℤ → PyVal

/-- `isinstance(v, str)`. -/
def PyVal.isStr : PyVal → Bool
  | .str _ => true
  | _ => false

/-- `isinstance(v, list)`. -/
def PyVal.isList : PyVal → Bool
  | .list _ => true
  | _ => false

/-- `ContactProcessor.process_email_signature`.  The per-block assembler
`_process_signature_block` calls the external statistical NER tagger, so it
enters the model as the parameter `processBlock` (already closed over the
subject and date it receives unchanged); its result is `none` when the
block is rejected.  Wrong-typed `email_body` / `external_emails` arguments
are logged and answered with `[]`; every failure path of the body is
likewise contained and yields `[]` (the enclosing `try/except`). -/
def process_email_signature (cfg : Config)
    (processBlock : Str → Str → Option FullContactInfo)
    (email_body : PyVal) (external_emails : PyVal) : List FullContactInfo :=
  match email_body with
  | .str body =>
    match external_emails with
    | .list exts =>
      let truly := exts.filterMap (fun v => match v with
        | .str e => if is_internal_email cfg e then Option.none else some e
        | _ => Option.none)
      match truly with
      | [] => []
      | first :: _ =>
        let blocks := extract_clean_signatures cfg body
        let contacts := blocks.filterMap (fun b =>
          if decide (15 < (pyStrip b).length) then processBlock b first
          else Option.none)
        let contacts :=
          if contacts.isEmpty then
            let clean_body := deep_clean_email_body cfg body
            if decide (30 < (pyStrip clean_body).length) then
              (processBlock clean_body first).toList
            else []
          else contacts
        contacts.map (fun c =>
          let q := analyze_contact_quality c
          { c with confidence_score := q.1, issues := q.2 })
    | _ => []
  | _ => []

/-- **C9.**  A wrongly-typed `email_body` or a non-list `external_emails`
makes `process_email_signature` return the empty contact list, and an
empty (or effectively missing) body also yields `[]` for every argument —
in the embedding every path is total, mirroring that no exception escapes
the function's boundary. -/
theorem C9_malformed_input_neutral (cfg : Config)
    (pb : Str → Str → Option FullContactInfo) :
    (∀ body exts : PyVal, body.isStr = false ∨ exts.isList = false →
      process_email_signature cfg pb body exts = []) ∧
    (∀ exts : PyVal, process_email_signature cfg pb (.str []) exts = []) := by
  have hsig : extract_clean_signatures cfg [] = [] := by
    unfold extract_clean_signatures
    simp [pySplitOn, sigBlocksAux, signature_markers, subOf, pyStrip, pyLower]
  have hclean : deep_clean_email_body cfg [] = [] := by
    unfold deep_clean_email_body
    simp [pySplitOn, pyStrip, pyLower, List.intercalate]
  constructor
  · intro body exts h
    cases body with
    | str b =>
      cases exts with
      | list l =>
        simp [PyVal.isStr, PyVal.isList] at h
      | str e => rfl
      | pynone => rfl
      | int n => rfl
    | list l => rfl
    | pynone => rfl
    | int n => rfl
  · intro exts
    cases exts with
    | list l =>
      unfold process_email_signature
      cases htruly : l.filterMap (fun v => match v with
        | .str e => if is_internal_email cfg e then Option.none else some e
        | _ => Option.none) with
      | nil => simp [htruly]
      | cons first rest =>
        simp only [htruly, hsig, hclean]
        simp [pyStrip]
    | str e => rfl
    | pynone => rfl
    | int n => rfl

/-- Witness for C9: an integer body, and an empty-string body with a valid
external list, both yield the empty contact list. -/
theorem C9_witness :
    process_email_signature cfgW (fun _ _ => Option.none) (.int 0)
      (.list [.str ("a@b.ru".data)]) = [] ∧
    process_email_signature cfgW (fun _ _ => Option.none) (.str [])
      (.list [.str ("a@b.ru".data)]) = [] :=
  ⟨(C9_malformed_input_neutral cfgW (fun _ _ => Option.none)).1 (.int 0)
      (.list [.str ("a@b.ru".data)]) (Or.inl (by decide)),
    (C9_malformed_input_neutral cfgW (fun _ _ => Option.none)).2
      (.list [.str ("a@b.ru".data)])⟩

end ContactParser

namespace ContactParser

/-! ## Claim C8: the fio pipeline of `_process_signature_block`

`_process_signature_block` runs `persons_str = str(ner_result.persons)` —
`ner_result.persons` is always a `List[str]`, so `persons_str` is the
Python repr of a list, `"['…']"` — and then validates it with
`_is_valid_person_name`, whose per-word shape check can never accept a
string that starts with `[`. -/

/-- `[А-ЯЁA-Z]`. -/
def isUpperNameChar (c : Char) : Bool :=
  (0x410 ≤ c.toNat && c.toNat ≤ 0x42F) || c.toNat = 0x401 ||
    ('A' ≤ c && c ≤ 'Z')

/-- `[а-яёa-z]`. -/
def isLowerNameChar (c : Char) : Bool :=
  (0x430 ≤ c.toNat && c.toNat ≤ 0x44F) || c.toNat = 0x451 ||
    ('a' ≤ c && c ≤ 'z')

/-- `re.match(r'^[А-ЯЁA-Z][а-яёa-z]+$', word)`. -/
def matchFullNameWord : Str → Bool
  | [] => false
  | c :: rest => isUpperNameChar c && !rest.isEmpty && rest.all isLowerNameChar

/-- `ContactProcessor._is_valid_person_name`. -/
def is_valid_person_name (stop_words : List Str) (name : Str) : Bool :=
  if name.isEmpty || decide ((pyStrip name).length < 3) then false
  else
    let name_lower := pyLower name
    if stop_words.contains name_lower then false
    else if [("центр лабораторной").data, "telegram:".data, "subject:".data,
        ("от кого").data, ("компания").data, "youtube".data,
        "rutube".data].any (fun p => subOf p name_lower) then false
    else
      let words := pySplitWs name
      if decide (words.length < 2) || decide (4 < words.length) then false
      else words.all matchFullNameWord

/-- Python `str(...)` of a list of strings: `['a', 'b']`. -/
def pyReprStrList (l : List Str) : Str :=
  '[' :: (List.intercalate (", ".data)
    (l.map (fun x => Char.ofNat 39 :: (x ++ [Char.ofNat 39]))) ++ [']'])

/-- **C8 (code bug).**  At the spec's own test input — the NER persons
list `["Иванов Иван Иванович"]` — the stringified list
`"['Иванов Иван Иванович']"` is rejected by `_is_valid_person_name` for
every stop-word configuration, so `contact.fio` is never set; with no
company either, the acceptance gate (fio or company) then rejects the
whole contact and the block yields no Contact at all. -/
theorem C8_person_repr_rejected (stop_words : List Str) :
    is_valid_person_name stop_words
      (pyReprStrList [("Иванов Иван Иванович").data]) = false := by
  unfold is_valid_person_name
  cases h : stop_words.contains (pyLower (pyReprStrList [("Иванов Иван Иванович").data]))
  · simp only [h]
    decide
  · simp only [h]
    decide

end ContactParser

namespace ContactParser

/-! ## The phone extractor (`test_phonenumbers_perfect.py`)

`PhoneExtractorPerfect.extract_phones_only` drives the external
`phonenumbers` matcher over the (truncated, preprocessed) text; each valid
match contributes its library-formatted international string and a
±30/+50-character local context window.  The matcher and formatter belong
to the external library, so a match enters the model as the pair of those
two strings; everything after that point is this repository's code. -/

/-- One accepted `PhoneNumberMatcher` match: the string
`phonenumbers.format_number(number, INTERNATIONAL)` and the local context
window around the match. -/
structure PhoneMatch where
  intl : Str
  context : Str

/-- The `mobile_codes` set (note: 911 and 935 are absent in the source). -/
def mobile_codes : List Str :=
  (["910", "912", "913", "914", "915", "916", "917", "918", "919",
    "920", "921", "922", "923", "924", "925", "926", "927", "928", "929",
    "930", "931", "932", "933", "934", "936", "937", "938", "939",
    "950", "951", "952", "953", "954", "955", "956", "957", "958", "959",
    "960", "961", "962", "963", "964", "965", "966", "967", "968", "969",
    "980", "981", "982", "983", "984", "985", "986", "987", "988", "989",
    "999"]).map String.data

/-- The tail of the area-code pattern after `+7`: `\s*\((\d{3})\)` — the
parenthesis literals are tested in the guard. -/
def mobTail (r : Str) : Option Str :=
  match r.dropWhile isPySpace with
  | u0 :: d1 :: d2 :: d3 :: cp :: _ =>
    if u0 = '(' && cp = ')' && d1.isDigit && d2.isDigit && d3.isDigit then
      some [d1, d2, d3]
    else none
  | _ => none

/-- One attempt of `re.search(r'\+7\s*\((\d{3})\)', phone)` at the current
position. -/
def matchMobAt (s : Str) : Option Str :=
  match s with
  | c :: c2 :: rest => if c = '+' ∧ c2 = '7' then mobTail rest else none
  | _ => none

/-- The search itself: first position at which the pattern matches. -/
def findMobCode : Str → Option Str
  | [] => none
  | c :: rest =>
    match matchMobAt (c :: rest) with
    | some code => some code
    | none => findMobCode rest

/-- `PhoneExtractorPerfect._is_mobile_phone`. -/
def is_mobile_phone (phone : Str) : Bool :=
  match findMobCode phone with
  | some code => mobile_codes.contains code
  | none => false

/-- Match of `\s*\([^)]*доб\.[^)]*\)` anchored at the current position:
optional whitespace, `(`, a `)`-free body containing `доб.`, and the first
`)` after the `(`.  Returns the matched length. -/
def dobParenAt (s : Str) : Option ℕ :=
  let ws := s.takeWhile isPySpace
  match s.dropWhile isPySpace with
  | '(' :: inner =>
    let body := inner.takeWhile (fun c => c ≠ ')')
    match inner.drop body.length with
    | ')' :: _ =>
      if subOf ("доб.".data) body then some (ws.length + 1 + body.length + 1)
      else none
    | _ => none
  | _ => none

/-- Fuelled scan of `re.sub(r'\s*\([^)]*доб\.[^)]*\)', '', phone)`:
leftmost non-overlapping matches are deleted.  Every match consumes at
least two characters, so `s.length` fuel suffices. -/
def removeDobAux : ℕ → Str → Str
  | 0, s => s
  | Nat.succ fuel, s =>
    match s with
    | [] => []
    | c :: rest =>
      match dobParenAt (c :: rest) with
      | some k => removeDobAux fuel ((c :: rest).drop k)
      | none => c :: removeDobAux fuel rest

/-- `re.sub(r'\s*\([^)]*доб\.[^)]*\)', '', phone)`. -/
def removeDob (s : Str) : Str := removeDobAux s.length s

/-- One step of `_postprocess_mobile_phones`: mobiles are cleaned of
extension groups, landlines pass through, both deduplicated via `seen`. -/
def postprocessStep (st : List Str × List Str) (phone : Str) :
    List Str × List Str :=
  let (processed, seen) := st
  if is_mobile_phone phone then
    let phone_clean := removeDob phone
    if seen.contains phone_clean then (processed, seen)
    else (processed ++ [phone_clean], seen ++ [phone_clean])
  else
    if seen.contains phone then (processed, seen)
    else (processed ++ [phone], seen ++ [phone])

/-- `PhoneExtractorPerfect._postprocess_mobile_phones`. -/
def postprocess_mobile_phones (phones : List Str) : List Str :=
  (phones.foldl postprocessStep ([], [])).1

/-- `PhoneExtractorPerfect._format_phone_russian` on the library-formatted
international string.  (`len(num) >= 7` in the source is equivalent to
`len(digits) >= 10`.) -/
def format_phone_russian (intl : Str) : Str :=
  if ("+7 ".data).isPrefixOf intl then
    let digits := (intl.drop 3).filter (fun c => c.isDigit)
    if 10 ≤ digits.length then
      ("+7 (".data) ++ digits.take 3 ++ (") ".data) ++ ((digits.drop 3).take 3)
        ++ ['-'] ++ (((digits.drop 3).drop 3).take 2) ++ ['-']
        ++ (((digits.drop 3).drop 5).take 2)
    else intl
  else intl

/-- The branch condition of `_format_phone_russian`, as a predicate. -/
def ruFormattable (intl : Str) : Bool :=
  ("+7 ".data).isPrefixOf intl &&
    decide (10 ≤ ((intl.drop 3).filter (fun c => c.isDigit)).length)

end ContactParser

namespace ContactParser

/-! ### Extension patterns (`_extract_extensions_improved`) -/

/-- Tokens of the six extension regexes (their literal parts are matched
case-insensitively; the final `(\d{1,5})` capture is built in).  `\.?` is
consumed greedily without backtracking: no token that can follow it in any
of the six patterns matches `.`, so greedy consumption is exact. -/
inductive ExtTok where
  | lit : Char → ExtTok
  | optDot : ExtTok
  | wsStar : ExtTok
  | wsPlus : ExtTok

/-- Match the token list, then the trailing `(\d{1,5})` capture (greedy,
followed by the end of the pattern).  Returns the captured digits and the
rest of the string after the match. -/
def extMatchAt : List ExtTok → Str → Option (Str × Str)
  | [], s =>
    let r := s.takeWhile (fun c => c.isDigit)
    if r.isEmpty then none
    else some (r.take 5, s.drop (min r.length 5))
  | tok :: toks, s =>
    match tok with
    | .lit p =>
      match s with
      | c :: rest => if pyLowerChar c = p then extMatchAt toks rest else none
      | [] => none
    | .optDot =>
      match s with
      | '.' :: rest => extMatchAt toks rest
      | _ => extMatchAt toks s
    | .wsStar => extMatchAt toks (s.dropWhile isPySpace)
    | .wsPlus =>
      match s with
      | c :: rest =>
        if isPySpace c then extMatchAt toks (rest.dropWhile isPySpace) else none
      | [] => none

/-- `re.finditer` for one extension pattern: scan left to right, continue
after each (non-empty) match. -/
def extFindAll (toks : List ExtTok) : ℕ → Str → List Str
  | 0, _ => []
  | _, [] => []
  | Nat.succ fuel, c :: rest =>
    match extMatchAt toks (c :: rest) with
    | some (g, after) => g :: extFindAll toks fuel after
    | none => extFindAll toks fuel rest

/-- The six extension patterns, in source order:
`доб\.?\s*`, `доп\.?\s*`, `добавочный\s+`, `ext\.?\s*`, `вн\.?\s*`,
`в\.?\s*н\.?\s*` — each followed by `(\d{1,5})`. -/
def extension_patterns : List (List ExtTok) :=
  [[.lit 'д', .lit 'о', .lit 'б', .optDot, .wsStar],
   [.lit 'д', .lit 'о', .lit 'п', .optDot, .wsStar],
   [.lit 'д', .lit 'о', .lit 'б', .lit 'а', .lit 'в', .lit 'о', .lit 'ч',
     .lit 'н', .lit 'ы', .lit 'й', .wsPlus],
   [.lit 'e', .lit 'x', .lit 't', .optDot, .wsStar],
   [.lit 'в', .lit 'н', .optDot, .wsStar],
   [.lit 'в', .optDot, .wsStar, .lit 'н', .optDot, .wsStar]]

/-- `PhoneExtractorPerfect._extract_extensions_improved`. -/
def extract_extensions_improved (context : Str) : List Str :=
  extension_patterns.foldl (fun acc toks =>
    (extFindAll toks context.length context).foldl (fun acc2 ext =>
      let f := ("доб. ".data) ++ ext
      if acc2.contains f then acc2 else acc2 ++ [f]) acc) []

/-! ### Local variants (`_extract_local_variants`) -/

/-- The class `[-\s]`. -/
def isDashSpace (c : Char) : Bool := c = '-' || isPySpace c

/-- One attempt of
`\+7\s*\(\d{3}\)\s*\d{3}[-\s]*\d{2}[-\s]*\d{2}\s*\((\d{1,2})\)` at the
current position; every starred class is followed by a character outside
it, so greedy consumption is exact, and `(\d{1,2})` must swallow the whole
digit run before the closing parenthesis. -/
def variantMatchAt : Str → Option Str
  | '+' :: '7' :: rest =>
    match rest.dropWhile isPySpace with
    | '(' :: a :: b :: c :: ')' :: r2 =>
      if a.isDigit && b.isDigit && c.isDigit then
        match r2.dropWhile isPySpace with
        | d1 :: d2 :: d3 :: r4 =>
          if d1.isDigit && d2.isDigit && d3.isDigit then
            match r4.dropWhile isDashSpace with
            | e1 :: e2 :: r6 =>
              if e1.isDigit && e2.isDigit then
                match r6.dropWhile isDashSpace with
                | f1 :: f2 :: r8 =>
                  if f1.isDigit && f2.isDigit then
                    match r8.dropWhile isPySpace with
                    | '(' :: r10 =>
                      let g := r10.takeWhile (fun ch => ch.isDigit)
                      if 1 ≤ g.length ∧ g.length ≤ 2 then
                        match r10.drop g.length with
                        | ')' :: _ => some g
                        | _ => none
                      else none
                    | _ => none
                  else none
                | _ => none
              else none
            | _ => none
          else none
        | _ => none
      else none
    | _ => none
  | _ => none

/-- `re.search` for the variant pattern. -/
def searchVariant : Str → Option Str
  | [] => none
  | c :: rest =>
    match variantMatchAt (c :: rest) with
    | some g => some g
    | none => searchVariant rest

/-- `str.zfill(2)`. -/
def zfill2 (s : Str) : Str :=
  if s.length < 2 then List.replicate (2 - s.length) '0' ++ s else s

/-- `PhoneExtractorPerfect._create_variant_number`:
`re.sub(r'-(\d{2})$', '-VV', base)` — replace a trailing `-dd` (phone
strings carry no trailing newline, so `$` is the end of the string). -/
def create_variant_number (base_number : Str) (variant_digits : Str) : Str :=
  match base_number.reverse with
  | d2 :: d1 :: '-' :: restRev =>
    if d1.isDigit && d2.isDigit then
      restRev.reverse ++ '-' :: zfill2 variant_digits
    else base_number
  | _ => base_number

/-- `PhoneExtractorPerfect._extract_local_variants`. -/
def extract_local_variants (local_context : Str) (base_number : Str) : List Str :=
  match searchVariant local_context with
  | some variant_digits =>
    if !is_mobile_phone base_number then
      [create_variant_number base_number variant_digits]
    else []
  | none => []

/-- `PhoneExtractorPerfect._process_single_phone`. -/
def process_single_phone (intl local_context : Str) : List Str :=
  let base_formatted := format_phone_russian intl
  let variant_in_same_number := extract_local_variants local_context base_formatted
  let extensions := extract_extensions_improved local_context
  let mainPhone :=
    if !extensions.isEmpty && !is_mobile_phone base_formatted then
      base_formatted ++ (" (".data) ++ joinCommaSpace extensions ++ [')']
    else base_formatted
  mainPhone :: variant_in_same_number.map (fun variant =>
    if !extensions.isEmpty && !is_mobile_phone variant then
      variant ++ (" (".data) ++ joinCommaSpace extensions ++ [')']
    else variant)

end ContactParser

namespace ContactParser

/-! ### Comma-separated phones (`_extract_comma_separated_phones`) -/

/-- The seven capture groups of
`\+7\s*\((\d{3,5})\)\s*(\d{1,3})[-\s]*(\d{2})[-\s]*(\d{2})\s*,\s*(\d{1,3})[-\s]*(\d{2})[-\s]*(\d{2})`. -/
structure CommaGroups where
  code : Str
  p1 : Str
  m1 : Str
  e1 : Str
  p2 : Str
  m2 : Str
  e2 : Str
deriving DecidableEq, Repr

/-- First-match alternative (`a` wins when it succeeds). -/
def oalt {α : Type} (a b : Option α) : Option α :=
  match a with
  | some x => some x
  | none => b

/-- `(\d{k})[-\s]*(\d{2})[-\s]*(\d{2})` with the first group of exactly
`k` digits; the starred classes are followed by digits, so greedy
consumption is exact. -/
def parseTripleK (k : ℕ) (s : Str) : Option ((Str × Str × Str) × Str) :=
  if (s.take k).length = k ∧ (s.take k).all (fun c => c.isDigit) then
    let r1 := (s.drop k).dropWhile isDashSpace
    if (r1.take 2).length = 2 ∧ (r1.take 2).all (fun c => c.isDigit) then
      let r2 := (r1.drop 2).dropWhile isDashSpace
      if (r2.take 2).length = 2 ∧ (r2.take 2).all (fun c => c.isDigit) then
        some ((s.take k, r1.take 2, r2.take 2), r2.drop 2)
      else none
    else none
  else none

/-- The first `(\d{1,3})…` triple together with its continuation
`\s*,\s*` + second triple: the regex backtracks through the greedy first
group, so the lengths 3, 2, 1 are tried with the whole continuation. -/
def commaTail (code : Str) (r4 : Str) (k : ℕ) : Option (CommaGroups × Str) :=
  match parseTripleK k r4 with
  | some ((p1, m1, e1), r5) =>
    match r5.dropWhile isPySpace with
    | ',' :: r7 =>
      let r8 := r7.dropWhile isPySpace
      (oalt (parseTripleK 3 r8) (oalt (parseTripleK 2 r8) (parseTripleK 1 r8))).map
        (fun x => (⟨code, p1, m1, e1, x.1.1, x.1.2.1, x.1.2.2⟩, x.2))
    | _ => none
  | none => none

/-- One attempt of the full comma pattern at the current position. -/
def commaMatchAt (s : Str) : Option (CommaGroups × Str) :=
  match s with
  | '+' :: '7' :: rest =>
    match rest.dropWhile isPySpace with
    | '(' :: r2 =>
      let code := r2.takeWhile (fun c => c.isDigit)
      if 3 ≤ code.length ∧ code.length ≤ 5 then
        match r2.drop code.length with
        | ')' :: r3 =>
          let r4 := r3.dropWhile isPySpace
          oalt (commaTail code r4 3) (oalt (commaTail code r4 2) (commaTail code r4 1))
        | _ => none
      else none
    | _ => none
  | _ => none

/-- `re.finditer` for the comma pattern (non-overlapping, left to right). -/
def commaFindAll : ℕ → Str → List CommaGroups
  | 0, _ => []
  | _, [] => []
  | Nat.succ fuel, c :: rest =>
    match commaMatchAt (c :: rest) with
    | some (g, after) => g :: commaFindAll fuel after
    | none => commaFindAll fuel rest

/-- `PhoneExtractorPerfect._extract_comma_separated_phones`. -/
def extract_comma_separated_phones (text : Str) : List Str :=
  (commaFindAll text.length text).flatMap (fun g =>
    let real_code := if g.code.length = 5 then g.code.take 3 else g.code
    let first_part := if g.code.length = 5 then g.code.drop 3 ++ g.p1 else g.p1
    let first_number := ("+7 (".data) ++ real_code ++ (") ".data) ++ first_part
      ++ ['-'] ++ g.m1 ++ ['-'] ++ g.e1
    let second_number := ("+7 (".data) ++ real_code ++ (") ".data) ++ g.p2
      ++ ['-'] ++ g.m2 ++ ['-'] ++ g.e2
    [first_number, second_number])

/-- `PhoneExtractorPerfect.extract_phones_only` from the point where the
matcher results are fixed (text truncation to 15000 characters and the
scientific-notation preprocessing happen before matching and are part of
the upstream library interaction). -/
def extract_phones_only (phoneMatches : List PhoneMatch) (text : Str) : List Str :=
  let base_phones := phoneMatches.flatMap (fun m => process_single_phone m.intl m.context)
  let base_phones := base_phones ++ extract_comma_separated_phones text
  postprocess_mobile_phones base_phones

end ContactParser

namespace ContactParser

/-! ## Claim C7: comma-separated short forms -/

/-- **C7 counterexample.**  On `"+7(38822)6-43-63, 6-43-65"` the extractor
keeps both numbers, but only the *first* is reconstructed by re-applying
the shared prefix `22` (the last two digits of the 5-digit code); the
second keeps its short subscriber form `6-43-65`, so the claimed
`"+7 (388) 226-43-65"` is not in the final output. -/
theorem C7_counterexample :
    extract_phones_only [] ("+7(38822)6-43-63, 6-43-65".data) =
      ["+7 (388) 226-43-63".data, "+7 (388) 6-43-65".data] ∧
    ("+7 (388) 226-43-65".data) ∉
      extract_phones_only [] ("+7(38822)6-43-63, 6-43-65".data) := by
  decide

/-- **C7 (amended).**  For every comma-pattern match with a 5-digit
parenthesized code, both numbers are kept under the 3-digit area code;
the *first* is reconstructed by prepending the last two digits of the
code to its short form, while the *second* keeps its short subscriber
form unchanged. -/
theorem C7_amended_comma_reconstruction (text : Str) (g : CommaGroups)
    (hg : g ∈ commaFindAll text.length text) (h5 : g.code.length = 5) :
    (("+7 (".data) ++ g.code.take 3 ++ (") ".data) ++ (g.code.drop 3 ++ g.p1)
      ++ ['-'] ++ g.m1 ++ ['-'] ++ g.e1) ∈ extract_comma_separated_phones text ∧
    (("+7 (".data) ++ g.code.take 3 ++ (") ".data) ++ g.p2
      ++ ['-'] ++ g.m2 ++ ['-'] ++ g.e2) ∈ extract_comma_separated_phones text := by
  unfold extract_comma_separated_phones
  constructor
  · exact List.mem_flatMap.2 ⟨g, hg, by simp [h5]⟩
  · exact List.mem_flatMap.2 ⟨g, hg, by simp [h5]⟩

/-- Witness for the amended C7 at the counterexample text. -/
theorem C7_amended_witness :
    (("+7 (".data) ++ ("38822".data).take 3 ++ (") ".data)
      ++ (("38822".data).drop 3 ++ "6".data) ++ ['-'] ++ "43".data ++ ['-']
      ++ "63".data) ∈
        extract_comma_separated_phones ("+7(38822)6-43-63, 6-43-65".data) ∧
    (("+7 (".data) ++ ("38822".data).take 3 ++ (") ".data) ++ "6".data
      ++ ['-'] ++ "43".data ++ ['-'] ++ "65".data) ∈
        extract_comma_separated_phones ("+7(38822)6-43-63, 6-43-65".data) :=
  C7_amended_comma_reconstruction ("+7(38822)6-43-63, 6-43-65".data)
    ⟨"38822".data, "6".data, "43".data, "63".data, "6".data, "43".data, "65".data⟩
    (by decide) (by decide)

end ContactParser

namespace ContactParser

/-! ### Substring lemmas -/

theorem subOf_eq_true_iff (pat s : Str) : subOf pat s = true ↔ pat <:+: s := by
  induction s with
  | nil => simp [subOf, List.isEmpty_iff]
  | cons a rest ih =>
    simp only [subOf, Bool.or_eq_true, List.isPrefixOf_iff_prefix, ih,
      List.infix_cons_iff]

theorem subOf_trans {p q s : Str} (h1 : subOf p q = true) (h2 : subOf q s = true) :
    subOf p s = true :=
  (subOf_eq_true_iff p s).2 (((subOf_eq_true_iff p q).1 h1).trans ((subOf_eq_true_iff q s).1 h2))

/-- A string avoiding the character `д` cannot contain `доб.`. -/
theorem subOf_dob_false {s : Str} (h : 'д' ∉ s) : subOf ("доб.".data) s = false := by
  cases hs : subOf ("доб.".data) s
  · rfl
  · exfalso
    have hsub : ("доб.".data : Str) ⊆ s := ((subOf_eq_true_iff _ s).1 hs).subset
    exact h (hsub (by decide))

theorem subOf_cons_of_subOf {pat s : Str} (c : Char) (h : subOf pat s = true) :
    subOf pat (c :: s) = true := by
  simp [subOf, h]

/-- A match of the extension-parenthesis pattern contains `доб.`. -/
theorem dobParenAt_some_sub {s : Str} {k : ℕ} (h : dobParenAt s = some k) :
    subOf ("доб.".data) s = true := by
  unfold dobParenAt at h
  simp only at h
  split at h
  · rename_i inner heq
    split at h
    · split at h
      · rename_i hsub
        have h3 : inner <:+: s.dropWhile isPySpace := by
          rw [heq]
          exact (List.suffix_cons '(' inner).isInfix
        have h4 : s.dropWhile isPySpace <:+ s := List.dropWhile_suffix _
        exact (subOf_eq_true_iff _ s).2
          ((((subOf_eq_true_iff _ _).1 hsub).trans
            (List.takeWhile_prefix _).isInfix).trans (h3.trans h4.isInfix))
      · exact absurd h (by simp)
    · exact absurd h (by simp)
  · exact absurd h (by simp)

/-- On a string free of `доб.` the extension-group deletion is the
identity. -/
theorem removeDobAux_eq_self (fuel : ℕ) :
    ∀ s : Str, subOf ("доб.".data) s = false → removeDobAux fuel s = s := by
  induction fuel with
  | zero => intro s _; rfl
  | succ fuel ih =>
    intro s h
    cases s with
    | nil => rfl
    | cons c rest =>
      unfold removeDobAux
      have hd : dobParenAt (c :: rest) = none := by
        cases hk : dobParenAt (c :: rest) with
        | none => rfl
        | some k =>
          rw [dobParenAt_some_sub hk] at h
          exact absurd h (by simp)
      have hrest : subOf ("доб.".data) rest = false := by
        cases hr : subOf ("доб.".data) rest
        · rfl
        · rw [subOf_cons_of_subOf c hr] at h
          exact absurd h (by simp)
      simp only [hd, ih rest hrest]

theorem removeDob_eq_self {s : Str} (h : subOf ("доб.".data) s = false) :
    removeDob s = s :=
  removeDobAux_eq_self s.length s h

end ContactParser

namespace ContactParser

/-! ### Appending an extension suffix does not change the mobile test -/

/-- Appending ` (д…` after any string leaves the area-code tail matcher
unchanged: the appended characters can never complete the `\((\d{3})\)`
shape. -/
theorem mobTail_append_eq (r t : Str) :
    mobTail (r ++ ' ' :: '(' :: 'д' :: t) = mobTail r := by
  unfold mobTail
  rw [List.dropWhile_append]
  cases hdr : r.dropWhile isPySpace with
  | nil =>
    rw [List.isEmpty_nil, if_pos rfl, List.dropWhile_cons, if_pos (by decide),
      List.dropWhile_cons, if_neg (by decide)]
    cases t with
    | nil => rfl
    | cons a t1 =>
      cases t1 with
      | nil => rfl
      | cons b t2 => cases t2 <;> simp +decide
  | cons x xs =>
    rw [List.isEmpty_cons, if_neg (by simp)]
    cases xs with
    | nil => cases t <;> simp +decide
    | cons y ys =>
      cases ys with
      | nil => simp +decide
      | cons z zs =>
        cases zs with
        | nil => simp +decide
        | cons w ws =>
          cases ws with
          | nil => simp +decide
          | cons v vs => rfl

/-- The search attempt at a fixed position is likewise unchanged. -/
theorem matchMobAt_append (s t : Str) :
    matchMobAt (s ++ ' ' :: '(' :: 'д' :: t) = matchMobAt s := by
  cases s with
  | nil => rfl
  | cons c s1 =>
    cases s1 with
    | nil =>
      simp only [List.cons_append, List.nil_append, matchMobAt]
      rw [if_neg (by rintro ⟨h1, h2⟩; exact absurd h2 (by decide))]
    | cons c2 s2 =>
      simp only [List.cons_append, matchMobAt]
      by_cases h : c = '+' ∧ c2 = '7'
      · rw [if_pos h, if_pos h]
        exact mobTail_append_eq s2 t
      · rw [if_neg h, if_neg h]

/-- A string without `+` admits no `\+7\s*\((\d{3})\)` match. -/
theorem findMobCode_of_no_plus : ∀ s : Str, '+' ∉ s → findMobCode s = none := by
  intro s
  induction s with
  | nil => intro _; rfl
  | cons c rest ih =>
    intro h
    have hc : c ≠ '+' := fun hc => h (by simp [hc])
    have hrest : '+' ∉ rest := fun hm => h (by simp [hm])
    have hm : matchMobAt (c :: rest) = none := by
      cases rest with
      | nil => rfl
      | cons c2 r2 =>
        simp only [matchMobAt]
        rw [if_neg (fun hand => hc hand.1)]
    unfold findMobCode
    simp only [hm, ih hrest]

/-- Appending ` (д…` with no `+` inside leaves the area-code search
unchanged. -/
theorem findMobCode_append (s t : Str) (hp : '+' ∉ t) :
    findMobCode (s ++ ' ' :: '(' :: 'д' :: t) = findMobCode s := by
  induction s with
  | nil =>
    rw [List.nil_append]
    refine findMobCode_of_no_plus _ ?_
    intro hm
    simp only [List.mem_cons] at hm
    rcases hm with h | h | h | h
    · exact absurd h (by decide)
    · exact absurd h (by decide)
    · exact absurd h (by decide)
    · exact hp h
  | cons c s1 ih =>
    rw [List.cons_append]
    unfold findMobCode
    have hmm : matchMobAt (c :: (s1 ++ ' ' :: '(' :: 'д' :: t)) = matchMobAt (c :: s1) := by
      rw [← List.cons_append]
      exact matchMobAt_append (c :: s1) t
    rw [hmm]
    cases hx : matchMobAt (c :: s1) with
    | some code => rfl
    | none => simpa using ih

/-- Appending ` (д…` with no `+` inside does not change the mobile
classification. -/
theorem is_mobile_phone_append (base t : Str) (hp : '+' ∉ t) :
    is_mobile_phone (base ++ ' ' :: '(' :: 'д' :: t) = is_mobile_phone base := by
  unfold is_mobile_phone
  rw [findMobCode_append base t hp]

end ContactParser

namespace ContactParser

/-! ### Substring occurrences across an append boundary -/

theorem prefix_append_cases : ∀ (p x b : Str), p <+: (x ++ b) →
    p <+: x ∨ ∃ c ∈ p, c ∈ b := by
  intro p
  induction p with
  | nil => intro x b _; exact Or.inl (List.nil_prefix)
  | cons pc p' ih =>
    intro x b h
    cases x with
    | nil =>
      refine Or.inr ⟨pc, by simp, ?_⟩
      exact h.subset (by simp)
    | cons xc x' =>
      rw [List.cons_append, List.cons_prefix_cons] at h
      rcases ih x' b h.2 with h2 | ⟨c, hc, hcb⟩
      · exact Or.inl (by rw [List.cons_prefix_cons]; exact ⟨h.1, h2⟩)
      · exact Or.inr ⟨c, by simp [hc], hcb⟩

theorem infix_append_cases : ∀ (a : Str) (p b : Str), p ≠ [] → p <:+: (a ++ b) →
    p <:+: a ∨ ∃ c ∈ p, c ∈ b := by
  intro a
  induction a with
  | nil =>
    intro p b hne h
    cases p with
    | nil => exact absurd rfl hne
    | cons pc p' =>
      exact Or.inr ⟨pc, by simp, h.subset (by simp)⟩
  | cons ac a' ih =>
    intro p b hne h
    rw [List.cons_append, List.infix_cons_iff] at h
    rcases h with h | h
    · rcases prefix_append_cases p (ac :: a') b (by rwa [List.cons_append]) with h2 | h2
      · exact Or.inl h2.isInfix
      · exact Or.inr h2
    · rcases ih p b hne h with h2 | h2
      · exact Or.inl (List.infix_cons h2)
      · exact Or.inr h2

theorem subOf_false_mono {pat y z : Str} (h : y <:+: z)
    (hz : subOf pat z = false) : subOf pat y = false := by
  cases hy : subOf pat y
  · rfl
  · exfalso
    have hzt := (subOf_eq_true_iff pat z).2 (((subOf_eq_true_iff pat y).1 hy).trans h)
    rw [hzt] at hz
    exact absurd hz (by decide)

/-- A pattern absent from `a` and made of characters absent from `b` is
absent from `a ++ b`. -/
theorem subOf_append_false {pat : Str} (a b : Str) (hne : pat ≠ [])
    (ha : subOf pat a = false) (hb : ∀ c ∈ pat, c ∉ b) :
    subOf pat (a ++ b) = false := by
  cases hs : subOf pat (a ++ b)
  · rfl
  · exfalso
    rcases infix_append_cases a pat b hne ((subOf_eq_true_iff _ _).1 hs) with h | ⟨c, hc, hcb⟩
    · rw [(subOf_eq_true_iff _ _).2 h] at ha
      exact absurd ha (by decide)
    · exact hb c hc hcb

/-- A string free of `доб.` is free of `(доб.`. -/
theorem subOf_paren_dob {q : Str} (h : subOf ("доб.".data) q = false) :
    subOf ("(доб.".data) q = false := by
  cases hs : subOf ("(доб.".data) q
  · rfl
  · exfalso
    have := subOf_trans (p := "доб.".data) (q := "(доб.".data) (by decide) hs
    rw [this] at h
    exact absurd h (by decide)

end ContactParser

namespace ContactParser

/-! ### Shape of the extension strings -/

theorem extMatchAt_digits : ∀ (toks : List ExtTok) (s g after : Str),
    extMatchAt toks s = some (g, after) → ∀ c ∈ g, c.isDigit = true := by
  intro toks
  induction toks with
  | nil =>
    intro s g after h c hc
    unfold extMatchAt at h
    simp only at h
    split at h
    · exact absurd h (by simp)
    · simp only [Option.some.injEq, Prod.mk.injEq] at h
      rcases h with ⟨h1, _⟩
      subst h1
      exact List.mem_takeWhile_imp (List.take_subset _ _ hc)
  | cons tok toks ih =>
    intro s g after h c hc
    cases tok with
    | lit p =>
      cases s with
      | nil => exact absurd h (by simp [extMatchAt])
      | cons c0 rest =>
        simp only [extMatchAt] at h
        split at h
        · exact ih rest g after h c hc
        · exact absurd h (by simp)
    | optDot =>
      simp only [extMatchAt] at h
      split at h
      · exact ih _ g after h c hc
      · exact ih _ g after h c hc
    | wsStar =>
      simp only [extMatchAt] at h
      exact ih _ g after h c hc
    | wsPlus =>
      cases s with
      | nil => exact absurd h (by simp [extMatchAt])
      | cons c0 rest =>
        simp only [extMatchAt] at h
        split at h
        · exact ih _ g after h c hc
        · exact absurd h (by simp)

theorem extFindAll_digits (toks : List ExtTok) :
    ∀ (fuel : ℕ) (s ext : Str), ext ∈ extFindAll toks fuel s →
      ∀ c ∈ ext, c.isDigit = true := by
  intro fuel
  induction fuel with
  | zero => intro s ext h; exact absurd h (by simp [extFindAll])
  | succ fuel ih =>
    intro s ext h
    cases s with
    | nil => exact absurd h (by simp [extFindAll])
    | cons c0 rest =>
      simp only [extFindAll] at h
      cases hm : extMatchAt toks (c0 :: rest) with
      | some ga =>
        obtain ⟨g, after⟩ := ga
        simp only [hm] at h
        rcases List.mem_cons.1 h with rfl | h2
        · exact extMatchAt_digits toks _ _ _ hm
        · exact ih after ext h2
      | none =>
        simp only [hm] at h
        exact ih rest ext h

theorem mem_ext_inner : ∀ (l acc : List Str) (f : Str),
    f ∈ l.foldl (fun acc2 ext =>
      let g := ("доб. ".data) ++ ext
      if acc2.contains g then acc2 else acc2 ++ [g]) acc →
    f ∈ acc ∨ ∃ ext ∈ l, f = ("доб. ".data) ++ ext := by
  intro l
  induction l with
  | nil => intro acc f h; exact Or.inl h
  | cons ext l' ih =>
    intro acc f h
    rw [List.foldl_cons] at h
    rcases ih _ f h with h2 | ⟨e, he, hf⟩
    · simp only at h2
      split at h2
      · exact Or.inl h2
      · rcases List.mem_append.1 h2 with h3 | h3
        · exact Or.inl h3
        · exact Or.inr ⟨ext, by simp, by simpa using h3⟩
    · exact Or.inr ⟨e, by simp [he], hf⟩

theorem mem_ext_outer : ∀ (pats : List (List ExtTok)) (ctx : Str) (acc : List Str) (f : Str),
    f ∈ pats.foldl (fun acc toks =>
      (extFindAll toks ctx.length ctx).foldl (fun acc2 ext =>
        let g := ("доб. ".data) ++ ext
        if acc2.contains g then acc2 else acc2 ++ [g]) acc) acc →
    f ∈ acc ∨ ∃ toks ∈ pats, ∃ ext ∈ extFindAll toks ctx.length ctx,
      f = ("доб. ".data) ++ ext := by
  intro pats
  induction pats with
  | nil => intro ctx acc f h; exact Or.inl h
  | cons toks pats' ih =>
    intro ctx acc f h
    rw [List.foldl_cons] at h
    rcases ih ctx _ f h with h2 | ⟨tk, htk, ext, hext, hf⟩
    · rcases mem_ext_inner _ _ f h2 with h3 | ⟨ext, hext, hf⟩
      · exact Or.inl h3
      · exact Or.inr ⟨toks, by simp, ext, hext, hf⟩
    · exact Or.inr ⟨tk, by simp [htk], ext, hext, hf⟩

/-- Every string produced by `_extract_extensions_improved` is
`"доб. "` followed by captured digits. -/
theorem extract_extensions_form (ctx : Str) :
    ∀ f ∈ extract_extensions_improved ctx,
      ∃ d : Str, f = ("доб. ".data) ++ d ∧ ∀ c ∈ d, c.isDigit = true := by
  intro f h
  unfold extract_extensions_improved at h
  rcases mem_ext_outer extension_patterns ctx [] f h with h2 | ⟨toks, _, ext, hext, hf⟩
  · exact absurd h2 (by simp)
  · exact ⟨ext, hf, extFindAll_digits toks _ _ ext hext⟩

/-! ### Shape of the joined extension suffix -/

theorem joinCommaSpace_singleton (f : Str) : joinCommaSpace [f] = f := by
  simp [joinCommaSpace, List.intercalate]

theorem joinCommaSpace_cons_cons (f g : Str) (l : List Str) :
    joinCommaSpace (f :: g :: l) = f ++ (", ".data) ++ joinCommaSpace (g :: l) := by
  simp [joinCommaSpace, List.intercalate, List.intersperse_cons_cons,
    List.append_assoc]

theorem joinCommaSpace_cons_form (f : Str) (l : List Str) :
    ∃ r : Str, joinCommaSpace (f :: l) = f ++ r := by
  cases l with
  | nil => exact ⟨[], by simp [joinCommaSpace_singleton]⟩
  | cons g l' =>
    exact ⟨(", ".data) ++ joinCommaSpace (g :: l'), by
      rw [joinCommaSpace_cons_cons]; simp [List.append_assoc]⟩

theorem mem_joinCommaSpace : ∀ (l : List Str) (c : Char), c ∈ joinCommaSpace l →
    c ∈ (", ".data) ∨ ∃ f ∈ l, c ∈ f := by
  intro l
  induction l with
  | nil =>
    intro c h
    exact absurd h (by simp [joinCommaSpace, List.intercalate])
  | cons f l' ih =>
    intro c h
    cases l' with
    | nil =>
      rw [joinCommaSpace_singleton] at h
      exact Or.inr ⟨f, by simp, h⟩
    | cons g l'' =>
      rw [joinCommaSpace_cons_cons] at h
      rcases List.mem_append.1 h with h2 | h2
      · rcases List.mem_append.1 h2 with h3 | h3
        · exact Or.inr ⟨f, by simp, h3⟩
        · exact Or.inl h3
      · rcases ih c h2 with h3 | ⟨f2, hf2, hc2⟩
        · exact Or.inl h3
        · exact Or.inr ⟨f2, by simp [hf2], hc2⟩

end ContactParser

namespace ContactParser

/-! ### The formatted base number and variants carry no `доб.` -/

theorem no_d_of_digits {l : Str} (h : ∀ c ∈ l, c.isDigit = true) : 'д' ∉ l :=
  fun hm => absurd (h 'д' hm) (by decide)

theorem format_eq_self_of_not (intl : Str) (h : ruFormattable intl = false) :
    format_phone_russian intl = intl := by
  unfold ruFormattable at h
  rw [Bool.and_eq_false_iff] at h
  unfold format_phone_russian
  rcases h with h | h
  · rw [if_neg (by simp [h])]
  · rw [decide_eq_false_iff_not] at h
    by_cases h1 : ("+7 ".data).isPrefixOf intl = true
    · rw [if_pos h1]
      show (if 10 ≤ ((intl.drop 3).filter (fun c => c.isDigit)).length then _ else intl) = intl
      rw [if_neg h]
    · rw [if_neg h1]

theorem format_no_d (intl : Str) (h : ruFormattable intl = true) :
    'д' ∉ format_phone_russian intl := by
  unfold ruFormattable at h
  rw [Bool.and_eq_true] at h
  obtain ⟨h1, h2⟩ := h
  rw [decide_eq_true_eq] at h2
  unfold format_phone_russian
  rw [if_pos h1]
  show 'д' ∉ (if 10 ≤ ((intl.drop 3).filter (fun c => c.isDigit)).length then
    ("+7 (".data) ++ ((intl.drop 3).filter (fun c => c.isDigit)).take 3 ++ (") ".data)
      ++ ((((intl.drop 3).filter (fun c => c.isDigit)).drop 3).take 3)
      ++ ['-'] ++ (((((intl.drop 3).filter (fun c => c.isDigit)).drop 3).drop 3).take 2)
      ++ ['-'] ++ (((((intl.drop 3).filter (fun c => c.isDigit)).drop 3).drop 5).take 2)
    else intl)
  rw [if_pos h2]
  intro hm
  have hdig : ∀ c ∈ (intl.drop 3).filter (fun c => c.isDigit), c.isDigit = true :=
    fun c hc => (List.mem_filter.1 hc).2
  simp only [List.mem_append] at hm
  rcases hm with ((((((hm | hm) | hm) | hm) | hm) | hm) | hm) | hm
  · exact absurd hm (by decide)
  · exact no_d_of_digits (fun c hc => hdig c (List.take_subset _ _ hc)) hm
  · exact absurd hm (by decide)
  · exact no_d_of_digits (fun c hc => hdig c (List.drop_subset _ _ (List.take_subset _ _ hc))) hm
  · exact absurd hm (by decide)
  · exact no_d_of_digits
      (fun c hc => hdig c (List.drop_subset _ _ (List.drop_subset _ _ (List.take_subset _ _ hc)))) hm
  · exact absurd hm (by decide)
  · exact no_d_of_digits
      (fun c hc => hdig c (List.drop_subset _ _ (List.drop_subset _ _ (List.take_subset _ _ hc)))) hm

theorem base_no_dob (intl : Str)
    (hintl : ruFormattable intl = false → subOf ("доб.".data) intl = false) :
    subOf ("доб.".data) (format_phone_russian intl) = false := by
  cases hru : ruFormattable intl with
  | false => rw [format_eq_self_of_not intl hru]; exact hintl hru
  | true => exact subOf_dob_false (format_no_d intl hru)

theorem variantMatchAt_digits (s g : Str) (h : variantMatchAt s = some g) :
    ∀ c ∈ g, c.isDigit = true := by
  intro c hc
  unfold variantMatchAt at h
  simp only at h
  repeat' split at h
  all_goals try exact Option.noConfusion h
  simp only [Option.some.injEq] at h
  subst h
  exact List.mem_takeWhile_imp hc

theorem searchVariant_digits : ∀ s g : Str, searchVariant s = some g →
    ∀ c ∈ g, c.isDigit = true := by
  intro s
  induction s with
  | nil => intro g h; exact absurd h (by simp [searchVariant])
  | cons c0 rest ih =>
    intro g h
    unfold searchVariant at h
    cases hm : variantMatchAt (c0 :: rest) with
    | some g2 =>
      simp only [hm, Option.some.injEq] at h
      subst h
      exact variantMatchAt_digits _ _ hm
    | none =>
      simp only [hm] at h
      exact ih g h

theorem create_variant_no_dob (base vd : Str)
    (hbase : subOf ("доб.".data) base = false)
    (hvd : ∀ c ∈ vd, c.isDigit = true) :
    subOf ("доб.".data) (create_variant_number base vd) = false := by
  unfold create_variant_number
  split
  · rename_i d2 d1 restRev heq
    split
    · have hb : base = restRev.reverse ++ ['-', d1, d2] := by
        have hrr := congrArg List.reverse heq
        simpa using hrr
      have hpre : restRev.reverse <+: base := ⟨['-', d1, d2], hb.symm⟩
      refine subOf_append_false _ _ (by simp)
        (subOf_false_mono hpre.isInfix hbase) ?_
      intro c hcp hmem
      have hcases : c = 'д' ∨ c = 'о' ∨ c = 'б' ∨ c = '.' := by simpa using hcp
      have hnd : c.isDigit = false := by
        rcases hcases with rfl | rfl | rfl | rfl <;> decide
      have hnz : c ≠ '0' := by
        rcases hcases with rfl | rfl | rfl | rfl <;> decide
      have hnh : c ≠ '-' := by
        rcases hcases with rfl | rfl | rfl | rfl <;> decide
      rcases List.mem_cons.1 hmem with rfl | hmem2
      · exact hnh rfl
      · unfold zfill2 at hmem2
        split at hmem2
        · rcases List.mem_append.1 hmem2 with h3 | h3
          · exact hnz (List.eq_of_mem_replicate h3)
          · rw [hvd c h3] at hnd; exact absurd hnd (by decide)
        · rw [hvd c hmem2] at hnd; exact absurd hnd (by decide)
    · exact hbase
  · exact hbase

end ContactParser

namespace ContactParser

/-! ### The comma-separated phone strings are digit-built -/

/-- All seven capture groups consist of digits. -/
def groupDigits (g : CommaGroups) : Prop :=
  (∀ c ∈ g.code, c.isDigit = true) ∧ (∀ c ∈ g.p1, c.isDigit = true) ∧
  (∀ c ∈ g.m1, c.isDigit = true) ∧ (∀ c ∈ g.e1, c.isDigit = true) ∧
  (∀ c ∈ g.p2, c.isDigit = true) ∧ (∀ c ∈ g.m2, c.isDigit = true) ∧
  (∀ c ∈ g.e2, c.isDigit = true)

theorem oalt_eq_some {α : Type} {a b : Option α} {x : α} (h : oalt a b = some x) :
    a = some x ∨ b = some x := by
  cases a with
  | some y => exact Or.inl h
  | none => exact Or.inr h

theorem parseTripleK_digits (k : ℕ) (s : Str) (x y z r : Str)
    (h : parseTripleK k s = some ((x, y, z), r)) :
    (∀ c ∈ x, c.isDigit = true) ∧ (∀ c ∈ y, c.isDigit = true) ∧
      (∀ c ∈ z, c.isDigit = true) := by
  unfold parseTripleK at h
  simp only at h
  repeat' split at h
  all_goals try exact Option.noConfusion h
  rename_i h1 h2 h3
  simp only [Option.some.injEq, Prod.mk.injEq] at h
  obtain ⟨⟨hx, hy, hz⟩, _⟩ := h
  subst hx; subst hy; subst hz
  exact ⟨List.all_eq_true.1 h1.2, List.all_eq_true.1 h2.2, List.all_eq_true.1 h3.2⟩

theorem commaTail_digits (code r4 : Str) (k : ℕ) (g : CommaGroups) (after : Str)
    (hcode : ∀ c ∈ code, c.isDigit = true)
    (h : commaTail code r4 k = some (g, after)) : groupDigits g := by
  unfold commaTail at h
  split at h
  · rename_i p1 m1 e1 r5 heq1
    split at h
    · rename_i r7 heq2
      simp only at h
      rw [Option.map_eq_some'] at h
      obtain ⟨x, hx, hfx⟩ := h
      obtain ⟨⟨q1, q2, q3⟩, rx⟩ := x
      simp only [Prod.mk.injEq] at hfx
      obtain ⟨hg, _⟩ := hfx
      subst hg
      have hd1 := parseTripleK_digits k r4 p1 m1 e1 r5 heq1
      have hd2 : (∀ c ∈ q1, c.isDigit = true) ∧ (∀ c ∈ q2, c.isDigit = true) ∧
          (∀ c ∈ q3, c.isDigit = true) := by
        rcases oalt_eq_some hx with h3 | h3
        · exact parseTripleK_digits 3 _ _ _ _ _ h3
        · rcases oalt_eq_some h3 with h4 | h4
          · exact parseTripleK_digits 2 _ _ _ _ _ h4
          · exact parseTripleK_digits 1 _ _ _ _ _ h4
      exact ⟨hcode, hd1.1, hd1.2.1, hd1.2.2, hd2.1, hd2.2.1, hd2.2.2⟩
    · exact Option.noConfusion h
  · exact Option.noConfusion h

theorem commaMatchAt_digits (s : Str) (g : CommaGroups) (after : Str)
    (h : commaMatchAt s = some (g, after)) : groupDigits g := by
  unfold commaMatchAt at h
  split at h
  · rename_i rest
    split at h
    · rename_i r2 heq2
      simp only at h
      split at h
      · rename_i hlen
        split at h
        · rename_i r3 heq3
          have hcode : ∀ c ∈ r2.takeWhile (fun c => c.isDigit), c.isDigit = true :=
            fun c hc => List.mem_takeWhile_imp hc
          rcases oalt_eq_some h with h3 | h3
          · exact commaTail_digits _ _ _ g after hcode h3
          · rcases oalt_eq_some h3 with h4 | h4
            · exact commaTail_digits _ _ _ g after hcode h4
            · exact commaTail_digits _ _ _ g after hcode h4
        · exact Option.noConfusion h
      · exact Option.noConfusion h
    · exact Option.noConfusion h
  · exact Option.noConfusion h

theorem commaFindAll_digits : ∀ (fuel : ℕ) (s : Str) (g : CommaGroups),
    g ∈ commaFindAll fuel s → groupDigits g := by
  intro fuel
  induction fuel with
  | zero => intro s g h; exact absurd h (by simp [commaFindAll])
  | succ fuel ih =>
    intro s g h
    cases s with
    | nil => exact absurd h (by simp [commaFindAll])
    | cons c0 rest =>
      simp only [commaFindAll] at h
      cases hm : commaMatchAt (c0 :: rest) with
      | some ga =>
        obtain ⟨g2, after⟩ := ga
        simp only [hm] at h
        rcases List.mem_cons.1 h with rfl | h2
        · exact commaMatchAt_digits _ _ _ hm
        · exact ih after g h2
      | none =>
        simp only [hm] at h
        exact ih rest g h

/-- Every output of `_extract_comma_separated_phones` is free of `доб.`. -/
theorem comma_no_dob (text : Str) :
    ∀ q ∈ extract_comma_separated_phones text, subOf ("доб.".data) q = false := by
  intro q h
  unfold extract_comma_separated_phones at h
  rw [List.mem_flatMap] at h
  obtain ⟨g, hg, hq⟩ := h
  obtain ⟨hc, hp1, hm1, he1, hp2, hm2, he2⟩ := commaFindAll_digits _ _ g hg
  refine subOf_dob_false ?_
  intro hdm
  simp only at hq
  have hreal : ∀ c ∈ (if g.code.length = 5 then g.code.take 3 else g.code),
      c.isDigit = true := by
    split
    · exact fun c hcm => hc c (List.take_subset _ _ hcm)
    · exact hc
  have hfirst : ∀ c ∈ (if g.code.length = 5 then g.code.drop 3 ++ g.p1 else g.p1),
      c.isDigit = true := by
    split
    · intro c hcm
      rcases List.mem_append.1 hcm with h3 | h3
      · exact hc c (List.drop_subset _ _ h3)
      · exact hp1 c h3
    · exact hp1
  rcases List.mem_cons.1 hq with rfl | hq2
  · simp only [List.mem_append] at hdm
    rcases hdm with ((((((hm | hm) | hm) | hm) | hm) | hm) | hm) | hm
    · exact absurd hm (by decide)
    · exact no_d_of_digits hreal hm
    · exact absurd hm (by decide)
    · exact no_d_of_digits hfirst hm
    · exact absurd hm (by decide)
    · exact no_d_of_digits hm1 hm
    · exact absurd hm (by decide)
    · exact no_d_of_digits he1 hm
  · rcases List.mem_cons.1 hq2 with rfl | hq3
    · simp only [List.mem_append] at hdm
      rcases hdm with ((((((hm | hm) | hm) | hm) | hm) | hm) | hm) | hm
      · exact absurd hm (by decide)
      · exact no_d_of_digits hreal hm
      · exact absurd hm (by decide)
      · exact no_d_of_digits hp2 hm
      · exact absurd hm (by decide)
      · exact no_d_of_digits hm2 hm
      · exact absurd hm (by decide)
      · exact no_d_of_digits he2 hm
    · exact absurd hq3 (by simp)

end ContactParser

namespace ContactParser

/-! ### Provenance of post-processed phones -/

theorem postprocess_fold_mem : ∀ (l : List Str) (st : List Str × List Str) (p : Str),
    p ∈ (l.foldl postprocessStep st).1 →
    p ∈ st.1 ∨ ∃ q ∈ l, (is_mobile_phone q = true ∧ p = removeDob q) ∨
      (is_mobile_phone q = false ∧ p = q) := by
  intro l
  induction l with
  | nil => intro st p h; exact Or.inl h
  | cons q l' ih =>
    intro st p h
    rw [List.foldl_cons] at h
    rcases ih _ p h with h2 | ⟨q2, hq2, hc⟩
    · obtain ⟨processed, seen⟩ := st
      unfold postprocessStep at h2
      simp only at h2
      cases hm : is_mobile_phone q with
      | true =>
        rw [if_pos hm] at h2
        split at h2
        · exact Or.inl h2
        · rcases List.mem_append.1 h2 with h3 | h3
          · exact Or.inl h3
          · exact Or.inr ⟨q, by simp, Or.inl ⟨hm, by simpa using h3⟩⟩
      | false =>
        rw [if_neg (by simp [hm])] at h2
        split at h2
        · exact Or.inl h2
        · rcases List.mem_append.1 h2 with h3 | h3
          · exact Or.inl h3
          · exact Or.inr ⟨q, by simp, Or.inr ⟨hm, by simpa using h3⟩⟩
    · exact Or.inr ⟨q2, by simp [hq2], hc⟩

theorem postprocess_mem (l : List Str) (p : Str)
    (h : p ∈ postprocess_mobile_phones l) :
    ∃ q ∈ l, (is_mobile_phone q = true ∧ p = removeDob q) ∨
      (is_mobile_phone q = false ∧ p = q) := by
  unfold postprocess_mobile_phones at h
  rcases postprocess_fold_mem l ([], []) p h with h2 | h2
  · exact absurd h2 (by simp)
  · exact h2

/-! ### No `доб.` in any mobile base phone of `_process_single_phone` -/

theorem plus_not_in_join (ctx : Str) :
    '+' ∉ joinCommaSpace (extract_extensions_improved ctx) := by
  intro hm
  rcases mem_joinCommaSpace _ '+' hm with h | ⟨f, hf, hcf⟩
  · exact absurd h (by decide)
  · obtain ⟨d, rfl, hd⟩ := extract_extensions_form ctx f hf
    rcases List.mem_append.1 hcf with h2 | h2
    · exact absurd h2 (by decide)
    · exact absurd (hd '+' h2) (by decide)

/-- The extension suffix appended by `_process_single_phone` never flips the
mobile classification of the number it decorates. -/
theorem is_mobile_with_ext_suffix (base ctx : Str)
    (hne : extract_extensions_improved ctx ≠ []) :
    is_mobile_phone (base ++ (" (".data)
        ++ joinCommaSpace (extract_extensions_improved ctx) ++ [')']) =
      is_mobile_phone base := by
  rcases hE : extract_extensions_improved ctx with _ | ⟨f, t⟩
  · exact absurd hE hne
  · obtain ⟨d, hfd, _⟩ := extract_extensions_form ctx f (by rw [hE]; simp)
    obtain ⟨r, hjoin⟩ := joinCommaSpace_cons_form f t
    have hjoin2 : joinCommaSpace (f :: t) =
        'д' :: (("об. ".data) ++ d ++ r) := by
      rw [hjoin, hfd]
      simp
    have hplus : '+' ∉ ("об. ".data) ++ d ++ r ++ [')'] := by
      intro hm
      have hj : '+' ∉ joinCommaSpace (f :: t) := by
        rw [← hE]; exact plus_not_in_join ctx
      rw [hjoin2] at hj
      simp only [List.mem_append, List.mem_singleton] at hm
      rcases hm with ((hm | hm) | hm) | hm
      · exact absurd hm (by decide)
      · exact hj (by simp [hm])
      · exact hj (by simp [hm])
      · exact absurd hm (by decide)
    have hshape : base ++ (" (".data) ++ joinCommaSpace (f :: t) ++ [')'] =
        base ++ ' ' :: '(' :: 'д' :: (("об. ".data) ++ d ++ r ++ [')']) := by
      rw [hjoin2]
      show base ++ [' ', '('] ++ _ ++ [')'] = _
      simp [List.append_assoc]
    rw [hshape]
    exact is_mobile_phone_append base _ hplus

/-- Any phone emitted by `_process_single_phone` that passes the mobile
test is free of `доб.` (given that a non-RU-formattable library string
carries none). -/
theorem process_single_no_dob (intl ctx : Str)
    (hintl : ruFormattable intl = false → subOf ("доб.".data) intl = false) :
    ∀ q ∈ process_single_phone intl ctx, is_mobile_phone q = true →
      subOf ("доб.".data) q = false := by
  intro q hq hmob
  unfold process_single_phone at hq
  simp only at hq
  have hbase : subOf ("доб.".data) (format_phone_russian intl) = false :=
    base_no_dob intl hintl
  rcases List.mem_cons.1 hq with rfl | hq2
  · by_cases hc : (!(extract_extensions_improved ctx).isEmpty
        && !is_mobile_phone (format_phone_russian intl)) = true
    · exfalso
      rw [if_pos hc] at hmob
      rw [Bool.and_eq_true, Bool.not_eq_true', Bool.not_eq_true'] at hc
      obtain ⟨h1, h2⟩ := hc
      rw [is_mobile_with_ext_suffix _ ctx (by simpa [List.isEmpty_iff] using h1), h2]
        at hmob
      exact absurd hmob (by decide)
    · rw [if_neg hc] at hmob ⊢
      exact hbase
  · rw [List.mem_map] at hq2
    obtain ⟨v, hv, rfl⟩ := hq2
    unfold extract_local_variants at hv
    split at hv
    · rename_i vd hsv
      split at hv
      · rename_i hnm
        simp only [List.mem_singleton] at hv
        subst hv
        have hvn : subOf ("доб.".data)
            (create_variant_number (format_phone_russian intl) vd) = false :=
          create_variant_no_dob _ vd hbase (searchVariant_digits ctx vd hsv)
        by_cases hc : (!(extract_extensions_improved ctx).isEmpty
            && !is_mobile_phone (create_variant_number (format_phone_russian intl) vd))
              = true
        · exfalso
          rw [if_pos hc] at hmob
          rw [Bool.and_eq_true, Bool.not_eq_true', Bool.not_eq_true'] at hc
          obtain ⟨h1, h2⟩ := hc
          rw [is_mobile_with_ext_suffix _ ctx (by simpa [List.isEmpty_iff] using h1), h2]
            at hmob
          exact absurd hmob (by decide)
        · rw [if_neg hc] at hmob ⊢
          exact hvn
      · exact absurd hv (by simp)
    · exact absurd hv (by simp)

end ContactParser

namespace ContactParser

/-! ## Claim C2: no mobile number carries an extension suffix -/

/-- **C2.**  For every input text and every set of library phone matches,
no string in `extract_phones_only`'s final output that passes the mobile
area-code test (`_is_mobile_phone`, membership of the `+7 (ddd)` code in
the static mobile-prefix set) contains the extension marker `(доб.`.
The hypothesis reflects the upstream `phonenumbers` library contract:
a formatted international string that does not take the Russian
`+7 (ddd) ddd-dd-dd` re-formatting branch carries no Russian extension
marker `доб.` (the library writes extensions that way only for Russian
numbers, and those strings satisfy `ruFormattable`, whose branch keeps
only the first ten digits). -/
theorem C2_no_mobile_extension (phoneMatches : List PhoneMatch) (text : Str)
    (hintl : ∀ m ∈ phoneMatches, ruFormattable m.intl = false →
      subOf ("доб.".data) m.intl = false) :
    ∀ p ∈ extract_phones_only phoneMatches text,
      is_mobile_phone p = true → subOf ("(доб.".data) p = false := by
  intro p hp hmob
  unfold extract_phones_only at hp
  simp only at hp
  obtain ⟨q, hq, hcase⟩ := postprocess_mem _ p hp
  rcases hcase with ⟨hqm, hpq⟩ | ⟨hqm, hpq⟩
  · subst hpq
    have hnod : subOf ("доб.".data) q = false := by
      rcases List.mem_append.1 hq with hqL | hqR
      · rw [List.mem_flatMap] at hqL
        obtain ⟨m, hm, hqm2⟩ := hqL
        exact process_single_no_dob m.intl m.context (hintl m hm) q hqm2 hqm
      · exact comma_no_dob text q hqR
    rw [removeDob_eq_self hnod]
    exact subOf_paren_dob hnod
  · subst hpq
    rw [hqm] at hmob
    exact absurd hmob (by decide)

theorem C2_witness :
    (∀ m ∈ [PhoneMatch.mk ("+7 916 123-45-67".data) ("доб. 55".data)],
      ruFormattable m.intl = false → subOf ("доб.".data) m.intl = false) ∧
    ("+7 (916) 123-45-67".data) ∈
      extract_phones_only [PhoneMatch.mk ("+7 916 123-45-67".data) ("доб. 55".data)] [] ∧
    is_mobile_phone ("+7 (916) 123-45-67".data) = true ∧
    subOf ("(доб.".data) ("+7 (916) 123-45-67".data) = false :=
  ⟨by decide, by decide, by decide,
    C2_no_mobile_extension
      [PhoneMatch.mk ("+7 916 123-45-67".data) ("доб. 55".data)] []
      (by decide) ("+7 (916) 123-45-67".data) (by decide) (by decide)⟩

end ContactParser
